import Mathlib

/-!
# turso-cli `internal/settings/cache.go`: TTL cache over the settings document

The cache functions of `cache.go` (`cacheKey`, `setCache`, `getCache`,
`invalidateCache` and the typed accessors) are embedded as pure functions
with the process-wide `viper` store and the clock passed explicitly.

`cache.go` calls two libraries whose code is outside the repository:
`github.com/spf13/viper` (`Set`, `Get`, `AllSettings`, `ReadConfig`) and
`github.com/mitchellh/mapstructure` (`Decode`).  Their behaviour is modelled
below from the libraries themselves, function by function under the
library's own names, restricted to what `cache.go` can reach:

* the store has the two layers the program writes, `override` (filled by
  `Set`, searched first by `Get`) and `config` (replaced by `ReadConfig`);
  flags, environment, key/value store, defaults and aliases are empty;
* keys are lower-cased and cut at `.` into a path through nested maps;
  the rune mapping of `strings.ToLower` is a parameter of the model
  (`UnicodeLower`), so every theorem holds for the Unicode mapping; the
  closed examples use ASCII keys and compute with its ASCII part;
* Go maps are association lists, their iteration order is the list order;
* the settings file is JSON; numbers are exact integers (the rounding of
  `float64` beyond 2^53 is outside the model);
* `Decode` runs with the default configuration (no weak typing, no
  zeroing of fields, tag name `mapstructure`);
* `int64` arithmetic wraps (`wrapInt64`); the clock `time.Now().Unix()` is
  an explicit argument of every function that reads it, and theorems about
  set and read times carry the range of the clock readings as hypotheses.
-/

namespace settings

/-! ## Lower-casing of keys -/

/-- The rune mapping `unicode.ToLower`, which `strings.ToLower` applies to
every rune of a key.  Its case tables are not part of the repository, so
the mapping is taken as given, together with the three facts about it the
proofs use: on ASCII it turns `A`-`Z` into `a`-`z` and leaves the rest, it
maps a lower-cased rune to itself, and it maps nothing but `.` to `.`. -/
class UnicodeLower where
  toLower : Char → Char
  ascii : ∀ c : Char, c.toNat < 128 → toLower c = c.toLower
  idem : ∀ c : Char, toLower (toLower c) = toLower c
  dot : ∀ c : Char, toLower c = '.' → c = '.'

/-- The ASCII part of the mapping, with every other rune left as it is.
It is not `unicode.ToLower`; it serves to compute the closed examples,
whose keys are ASCII: on ASCII text every mapping with the three
properties gives the same lower-case form (`lowerKey_eq_lowerASCII`). -/
def asciiLower : UnicodeLower where
  toLower := Char.toLower
  ascii := fun _ _ => rfl
  idem := by
    intro c
    by_cases h : c.toNat ≥ 65 ∧ c.toNat ≤ 90
    · have e : c.toLower = Char.ofNat (c.toNat + 32) := by simp [Char.toLower, h]
      rw [e]
      obtain ⟨h1, h2⟩ := h
      generalize c.toNat = n at h1 h2
      interval_cases n <;> rfl
    · have e : c.toLower = c := by
        unfold Char.toLower
        simp only [h, if_false]
      rw [e, e]
  dot := by
    intro c hc
    by_cases h : c.toNat ≥ 65 ∧ c.toNat ≤ 90
    · have e : c.toLower = Char.ofNat (c.toNat + 32) := by simp [Char.toLower, h]
      rw [e] at hc
      obtain ⟨h1, h2⟩ := h
      generalize c.toNat = n at h1 h2 hc
      interval_cases n <;> exact absurd hc (by decide)
    · have e : c.toLower = c := by
        unfold Char.toLower
        simp only [h, if_false]
      rw [e] at hc
      exact hc

section Model

variable [UnicodeLower]

/-! ## Go values -/

/-- A Go value held in an `interface{}` of the settings document.
`null`..`obj` are the shapes a JSON document decodes to; `strs`, `strMap`
and `entry` are typed values a running program hands to `viper.Set`
(`[]string`, `map[string]string`, the struct `Entry[T]`), where `none`
stands for the nil slice or nil map. -/
inductive Value where
  | null : Value
  | bool (b : Bool) : Value
  | num (n : Int) : Value
  | str (s : String) : Value
  | arr (xs : List Value) : Value
  | obj (kvs : List (String × Value)) : Value
  | strs (xs : Option (List String)) : Value
  | strMap (m : Option (List (String × String))) : Value
  | entry (ty : String) (expiration : Int) (data : Value) : Value

/-- The Go type `map[string]interface{}` as an association list. -/
abbrev Document := List (String × Value)

/-- The Go test `val == nil` on an interface value. -/
def Value.isNull : Value → Bool
  | .null => true
  | _ => false

/-- Map index `m[k]` with the comma-ok result. -/
def mapGet : Document → String → Option Value
  | [], _ => none
  | (k', x) :: rest, k => if k' = k then some x else mapGet rest k

/-- Map assignment `m[k] = x`. -/
def mapSet : Document → String → Value → Document
  | [], k, x => [(k, x)]
  | (k', y) :: rest, k, x =>
    if k' = k then (k, x) :: rest else (k', y) :: mapSet rest k x

/-- The builtin `delete(m, k)`. -/
def mapDelete : Document → String → Document
  | [], _ => []
  | (k', y) :: rest, k =>
    if k' = k then mapDelete rest k else (k', y) :: mapDelete rest k

/-! ## Keys -/

/-- The call `strings.ToLower`: every rune goes through `unicode.ToLower`. -/
def lowerKey (s : String) : String := String.mk (s.data.map UnicodeLower.toLower)

/-- Lower-casing of the ASCII letters `A`-`Z` alone. -/
def lowerASCII (s : String) : String := String.mk (s.data.map Char.toLower)

/-- Cut a character list at every key delimiter `.`. -/
def splitOnDot : List Char → List (List Char)
  | [] => [[]]
  | c :: cs =>
    if c = '.' then [] :: splitOnDot cs
    else match splitOnDot cs with
      | [] => [[c]]
      | p :: ps => (c :: p) :: ps

/-- The call `strings.Split(key, v.keyDelim)` with the default delimiter. -/
def splitKey (s : String) : List String := (splitOnDot s.data).map String.mk

/-- The call `strings.Join(path, v.keyDelim)`. -/
def joinKey (path : List String) : String := ".".intercalate path

/-! ## The viper store -/

/-- The process-wide viper instance: the layer written by `Set` and the
layer loaded by `ReadConfig`. -/
structure Viper where
  override : Document
  config : Document

/-- Viper `searchMap`: walk nested `map[string]interface{}` values along
`path`; a non-map met before the path ends gives nil. -/
def searchMap : Document → List String → Value
  | source, [] => .obj source
  | source, k :: rest =>
    match mapGet source k with
    | none => .null
    | some next =>
      match rest with
      | [] => next
      | _ :: _ =>
        match next with
        | .obj m => searchMap m rest
        | _ => .null

/-- Loop of viper `isPathShadowedInDeepMap` over the prefix lengths. -/
def isPathShadowedLoop (path : List String) (m : Document) : List Nat → String
  | [] => ""
  | i :: rest =>
    match searchMap m (path.take i) with
    | .null => ""
    | .obj _ => isPathShadowedLoop path m rest
    | _ => joinKey (path.take i)

/-- Viper `isPathShadowedInDeepMap`: the first proper prefix of `path`
that holds a regular value in `m`, or `""`. -/
def isPathShadowedInDeepMap (path : List String) (m : Document) : String :=
  isPathShadowedLoop path m (List.range path.length).tail

/-- First non-nil result of `f` over the candidates. -/
def firstNonNull (f : Nat → Value) : List Nat → Value
  | [] => .null
  | i :: rest => if (f i).isNull then firstNonNull f rest else f i

/-- Viper `searchIndexableWithPathPrefixes` on the config layer: at each
level the longest prefix of the path that is a key wins.  The recursion
is on a path that gets strictly shorter, so `path.length` is enough fuel.
Numeric indexing into arrays is left out: an array along the path gives
nil. -/
def searchIndexableWithPathPrefixes : Nat → Value → List String → Value
  | 0, _, _ => .null
  | fuel + 1, source, path =>
    if path.isEmpty then source
    else
      firstNonNull (fun i =>
        match source with
        | .obj m =>
          match mapGet m (lowerKey (joinKey (path.take i))) with
          | none => .null
          | some next =>
            if i = path.length then next
            else match next with
              | .obj _ => searchIndexableWithPathPrefixes fuel next (path.drop i)
              | _ => .null
        | _ => .null)
        ((List.range path.length).reverse.map (· + 1))

/-- Viper `find`: `Set` overrides first, then the config file. -/
def Viper.find (v : Viper) (lcaseKey : String) : Value :=
  let path := splitKey lcaseKey
  let val := searchMap v.override path
  if !val.isNull then val
  else if decide (path.length > 1) && isPathShadowedInDeepMap path v.override != "" then .null
  else searchIndexableWithPathPrefixes path.length (.obj v.config) path

/-- The call `viper.Get(key)`. -/
def Viper.Get (v : Viper) (key : String) : Value :=
  v.find (lowerKey key)

/-- Viper `deepSearch(m, path)` followed by `deepestMap[lastKey] = value`:
missing or non-map intermediate values are replaced by fresh maps. -/
def setDeep : Document → List String → String → Value → Document
  | m, [], lastKey, value => mapSet m lastKey value
  | m, k :: rest, lastKey, value =>
    match mapGet m k with
    | some (.obj m3) => mapSet m k (.obj (setDeep m3 rest lastKey value))
    | _ => mapSet m k (.obj (setDeep [] rest lastKey value))

mutual
/-- Viper `insensitiviseVal`: nested maps get lower-case keys. -/
def insensitiviseVal : Value → Value
  | .obj kvs => .obj (insensitiviseLoop [] kvs)
  | v => v
/-- The loop of viper `copyAndInsensitiviseMap` / `insensitiviseMap`: each
entry in turn is assigned, under its lower-cased key, to the map built so
far. -/
def insensitiviseLoop (acc : List (String × Value)) :
    List (String × Value) → List (String × Value)
  | [] => acc
  | (k, x) :: rest => insensitiviseLoop (mapSet acc (lowerKey k) (insensitiviseVal x)) rest
end

/-- Viper `copyAndInsensitiviseMap` / `insensitiviseMap`. -/
def insensitiviseFields (kvs : List (String × Value)) : List (String × Value) :=
  insensitiviseLoop [] kvs

/-- Viper `toCaseInsensitiveValue`: only generic maps are rewritten. -/
def toCaseInsensitiveValue : Value → Value
  | .obj kvs => .obj (insensitiviseFields kvs)
  | v => v

/-- The call `viper.Set(key, value)`. -/
def Viper.Set (v : Viper) (key : String) (value : Value) : Viper :=
  let path := splitKey (lowerKey key)
  { v with override :=
      setDeep v.override path.dropLast (lowerKey (path.getLastD "")) (toCaseInsensitiveValue value) }

mutual
/-- Viper `flattenAndMergeMap` at one value: a nested map is flattened
under its key unless that key is already shadowed; anything else is a leaf. -/
def flattenValue (shadow : List String) (fullKey : String) : Value → List String
  | .obj m2 =>
    if fullKey != "" && shadow.contains fullKey then shadow
    else flattenLoop shadow (if fullKey != "" then fullKey ++ "." else "") m2
  | _ => if shadow.contains (lowerKey fullKey) then shadow else shadow ++ [lowerKey fullKey]
/-- The `for k, val := range m` loop of viper `flattenAndMergeMap`. -/
def flattenLoop (shadow : List String) (pfx : String) : List (String × Value) → List String
  | [] => shadow
  | (k, val) :: rest => flattenLoop (flattenValue shadow (pfx ++ k) val) pfx rest
end

/-- The call `viper.AllKeys()`: overrides first, then the config file. -/
def Viper.AllKeys (v : Viper) : List String :=
  flattenLoop (flattenLoop [] "" v.override) "" v.config

/-- The call `viper.AllSettings()`: a nested map rebuilt one key at a time. -/
def Viper.AllSettings (v : Viper) : Document :=
  v.AllKeys.foldl (fun m k =>
    let value := v.Get k
    if value.isNull then m
    else
      let path := splitKey k
      setDeep m path.dropLast (lowerKey (path.getLastD "")) value) []

mutual
/-- What `encoding/json` writes for a value and reads back into
`interface{}`: typed slices, maps and structs become generic ones, and
`Entry[T]` is written under its tags `expiration` and `data`. -/
def jsonValue : Value → Value
  | .arr xs => .arr (jsonList xs)
  | .obj kvs => .obj (jsonFields kvs)
  | .strs none => .null
  | .strs (some xs) => .arr (xs.map Value.str)
  | .strMap none => .null
  | .strMap (some m) => .obj (m.map (fun kv => (kv.1, Value.str kv.2)))
  | .entry _ e d => .obj [("expiration", .num e), ("data", jsonValue d)]
  | v => v
/-- Elements of a JSON array. -/
def jsonList : List Value → List Value
  | [] => []
  | x :: xs => jsonValue x :: jsonList xs
/-- Members of a JSON object. -/
def jsonFields : List (String × Value) → List (String × Value)
  | [] => []
  | (k, x) :: rest => (k, jsonValue x) :: jsonFields rest
end

/-- The call `viper.ReadConfig` on a JSON document: the config layer is
replaced by the decoded document with lower-case keys; overrides stay. -/
def Viper.ReadConfig (v : Viper) (encodedConfig : Document) : Viper :=
  { v with config := insensitiviseFields encodedConfig }

/-! ## mapstructure -/

/-- The generic struct `Entry[T]` of `cache.go`. -/
structure Entry (T : Type) where
  Expiration : Int
  Data : T
  deriving DecidableEq

/-- A Go type `T` that `Entry[T]` is instantiated at.  `box` is the value
inside an `interface{}`, `typeName` its `reflect.Type`, and `decode` is
`mapstructure` decoding a non-nil input into a zero `T`: the decoded value
and whether an error was reported. -/
class GoType (T : Type) where
  typeName : String
  zero : T
  box : T → Value
  unbox : Value → Option T
  unbox_box : ∀ x : T, unbox (box x) = some x
  decode : Value → T × Bool

/-- Mapstructure `decodeString` without weak typing: only a string converts. -/
def decodeString : Value → String × Bool
  | .str s => (s, false)
  | .null => ("", false)
  | _ => ("", true)

/-- Mapstructure `decodeSlice` into a nil `[]string`: every element is
decoded in turn, failures leave a zero element and are collected. -/
def decodeStrings : Value → Option (List String) × Bool
  | .arr xs => (some (xs.map (fun x => (decodeString x).1)), xs.any (fun x => (decodeString x).2))
  | .strs xs => (xs, false)
  | _ => (none, true)

/-- Mapstructure `decodeMap` into a nil `map[string]string`: entries whose
value fails to decode are skipped and the failure is collected. -/
def decodeStringMap : Value → Option (List (String × String)) × Bool
  | .obj kvs =>
    (some ((kvs.filter (fun kv => !(decodeString kv.2).2)).map (fun kv => (kv.1, (decodeString kv.2).1))),
      kvs.any (fun kv => (decodeString kv.2).2))
  | .strMap none => (none, false)
  | .strMap (some m) => (some m, false)
  | _ => (none, true)

instance : GoType String where
  typeName := "string"
  zero := ""
  box := Value.str
  unbox := fun v => match v with
    | .str s => some s
    | _ => none
  unbox_box := fun _ => rfl
  decode := decodeString

instance : GoType (Option (List String)) where
  typeName := "[]string"
  zero := none
  box := Value.strs
  unbox := fun v => match v with
    | .strs xs => some xs
    | _ => none
  unbox_box := fun _ => rfl
  decode := decodeStrings

instance : GoType (Option (List (String × String))) where
  typeName := "map[string]string"
  zero := none
  box := Value.strMap
  unbox := fun v => match v with
    | .strMap m => some m
    | _ => none
  unbox_box := fun _ => rfl
  decode := decodeStringMap

/-- The struct `Entry[T]` as the `interface{}` handed to `viper.Set`. -/
def Entry.box {T : Type} [GoType T] (e : Entry T) : Value :=
  .entry (GoType.typeName T) e.Expiration (GoType.box e.Data)

/-- Mapstructure looking a struct field up in a map: the exact name first,
then the first key that `strings.EqualFold` matches with it.  It is called
with the names `Expiration` and `Data` only; none of their letters has a
case variant outside ASCII, so a key matches exactly when it equals the
name after lower-casing the ASCII letters. -/
def lookupField (m : Document) (fieldName : String) : Option Value :=
  match mapGet m fieldName with
  | some x => some x
  | none => (m.find? (fun kv => lowerASCII kv.1 == lowerASCII fieldName)).map Prod.snd

/-- Mapstructure `decodeInt` without weak typing: numbers convert, a nil
input sets nothing, anything else is an error. -/
def decodeInt (cur : Int) : Value → Int × Bool
  | .num n => (n, false)
  | .null => (cur, false)
  | _ => (cur, true)

/-- Mapstructure `decodeStructFromMap` for `Entry[T]`: each field found in
the map is decoded on its own; a field the map lacks, or whose value is
nil, keeps what the destination held; errors are collected. -/
def decodeStructFromMap {T : Type} [GoType T] (m : Document) (entry : Entry T) : Entry T × Bool :=
  let exp : Int × Bool :=
    match lookupField m "Expiration" with
    | none => (entry.Expiration, false)
    | some x => decodeInt entry.Expiration x
  let data : T × Bool :=
    match lookupField m "Data" with
    | none => (entry.Data, false)
    | some .null => (entry.Data, false)
    | some x => GoType.decode x
  ({ Expiration := exp.1, Data := data.1 }, exp.2 || data.2)

/-- The call `mapstructure.Decode(value, &entry)`: the entry after the
call and whether the returned error is non-nil.  A nil input sets nothing
and is no error; a struct of the destination's own type is copied; a map,
or another struct taken as the map of its fields, is decoded field by
field; any other input is an error. -/
def Decode {T : Type} [GoType T] (value : Value) (entry : Entry T) : Entry T × Bool :=
  match value with
  | .null => (entry, false)
  | .entry ty e d =>
    if ty = GoType.typeName T then
      match (GoType.unbox d : Option T) with
      | some x => ({ Expiration := e, Data := x }, false)
      | none => decodeStructFromMap [("Expiration", .num e), ("Data", d)] entry
    else decodeStructFromMap [("Expiration", .num e), ("Data", d)] entry
  | .obj m => decodeStructFromMap m entry
  | .strMap m => decodeStructFromMap ((m.getD []).map (fun kv => (kv.1, Value.str kv.2))) entry
  | _ => (entry, true)

/-! ## cache.go -/

/-- The two errors `getCache` returns: `ErrExpired`, and the
`fmt.Errorf("failed to get cache data for %s", key)` of a failed decode. -/
inductive CacheError where
  | ErrExpired : CacheError
  | decodeFailed (key : String) : CacheError
  deriving DecidableEq, Repr

/-- Go `int64` addition: the sum reduced into `[-2^63, 2^63)`. -/
def wrapInt64 (x : Int) : Int := (x + 2 ^ 63) % 2 ^ 64 - 2 ^ 63

/-- The largest `int64`. -/
def maxInt64 : Int := 2 ^ 63 - 1

/-- The smallest `int64`. -/
def minInt64 : Int := -(2 ^ 63)

/-- The function `cacheKey`. -/
def cacheKey (key : String) : String := "cache." ++ key

/-- The function `setCache`, with `now` the value of `time.Now().Unix()`:
the store after the call and the returned error. -/
def setCache {T : Type} [GoType T] (key : String) (ttl : Int) (value : T) (now : Int)
    (v : Viper) : Viper × Option CacheError :=
  let entry : Entry T := { Expiration := 0, Data := value }
  let entry : Entry T :=
    if ttl > 0 then { entry with Expiration := wrapInt64 (now + ttl) } else entry
  (v.Set (cacheKey key) entry.box, none)

/-- The function `getCache`, with `now` the value of `time.Now().Unix()`:
the returned data and error.  The store is only read. -/
def getCache (T : Type) [GoType T] (key : String) (now : Int) (v : Viper) :
    T × Option CacheError :=
  let entry : Entry T := { Expiration := 0, Data := GoType.zero }
  let value := v.Get (cacheKey key)
  let r := Decode value entry
  if r.2 then (r.1.Data, some (.decodeFailed key))
  else if r.1.Expiration ≠ 0 ∧ r.1.Expiration < now then (r.1.Data, some .ErrExpired)
  else (r.1.Data, none)

/-- The function `invalidateCache`: snapshot, `delete` of the namespaced
key at the top level of the snapshot, JSON encoding and reload.  Every
value of the model encodes and parses, so both error returns are nil. -/
def invalidateCache (key : String) (v : Viper) : Viper × Option CacheError :=
  let configMap := v.AllSettings
  let configMap := mapDelete configMap (cacheKey key)
  let encodedConfig := jsonFields configMap
  (v.ReadConfig encodedConfig, none)

/-- The constant `DB_NAMES_CACHE_KEY`. -/
def DB_NAMES_CACHE_KEY : String := "database_names"

/-- The constant `DB_NAMES_CACHE_TTL_SECONDS`. -/
def DB_NAMES_CACHE_TTL_SECONDS : Int := 30 * 60

/-- The method `SetDbNamesCache`. -/
def SetDbNamesCache (dbNames : Option (List String)) (now : Int) (v : Viper) : Viper :=
  (setCache DB_NAMES_CACHE_KEY DB_NAMES_CACHE_TTL_SECONDS dbNames now v).1

/-- The method `GetDbNamesCache`. -/
def GetDbNamesCache (now : Int) (v : Viper) : Option (List String) :=
  match getCache (Option (List String)) DB_NAMES_CACHE_KEY now v with
  | (_, some _) => none
  | (data, none) => data

/-- The method `InvalidateDbNamesCache`. -/
def InvalidateDbNamesCache (v : Viper) : Viper :=
  (invalidateCache DB_NAMES_CACHE_KEY v).1

/-- The constant `REGIONS_CACHE_KEY`. -/
def REGIONS_CACHE_KEY : String := "locations"

/-- The constant `DEFAULT_REGION_CACHE_KEY`. -/
def DEFAULT_REGION_CACHE_KEY : String := "defaultLocation"

/-- The constant `REGIONS_CACHE_TTL_SECONDS`. -/
def REGIONS_CACHE_TTL_SECONDS : Int := 8 * 60 * 60

/-- The method `SetLocationsCache`: two writes, each with its own reading
of the clock (`now1` for the mapping, `now2` for the closest region). -/
def SetLocationsCache (locations : Option (List (String × String))) (closest : String)
    (now1 now2 : Int) (v : Viper) : Viper :=
  let v1 := (setCache REGIONS_CACHE_KEY REGIONS_CACHE_TTL_SECONDS locations now1 v).1
  (setCache DEFAULT_REGION_CACHE_KEY REGIONS_CACHE_TTL_SECONDS closest now2 v1).1

/-- The method `LocationsCache`: two reads, each with its own reading of
the clock; the second read happens only when the first gave no error. -/
def LocationsCache (now1 now2 : Int) (v : Viper) : Option (List (String × String)) × String :=
  match getCache (Option (List (String × String))) REGIONS_CACHE_KEY now1 v with
  | (_, some _) => (none, "")
  | (locations, none) =>
    match getCache String DEFAULT_REGION_CACHE_KEY now2 v with
    | (_, some _) => (none, "")
    | (defaultLocation, none) => (locations, defaultLocation)

/-- The value of `entry.Expiration` when `setCache` hands the entry to the
store: `time.Now().Unix() + ttl` in `int64` for a positive `ttl`, else the
zero the struct literal left. -/
def storedExpiration (ttl now : Int) : Int :=
  if ttl > 0 then wrapInt64 (now + ttl) else 0

/-- The store of a process that has loaded an empty settings file. -/
def emptyStore : Viper := { override := [], config := [] }

/-- The store of a process that has loaded a settings file in which an
earlier run persisted the database names `a`, `b` with the given
expiration. -/
def persistedStore (expiration : Int) : Viper :=
  { override := []
    config :=
      [("cache", .obj [("database_names",
          .obj [("expiration", .num expiration), ("data", .arr [.str "a", .str "b"])])])] }

/-- Whether the kind of the input is one mapstructure `decodeStruct`
takes apart into fields (a map or a struct); for every other non-nil
kind it reports an error without touching the destination. -/
def Value.isStructSource : Value → Bool
  | .obj _ => true
  | .strMap _ => true
  | .entry _ _ _ => true
  | _ => false

/-- Whether a regular value (neither nil nor a map) sits at the key `cache`
of the overrides, as after `viper.Set("cache", x)`; such a value shadows
every key of the cache namespace in the lower layers. -/
def cacheShadowed (v : Viper) : Bool :=
  match searchMap v.override ["cache"] with
  | .null => false
  | .obj _ => false
  | _ => true

/-- The store of a process that has loaded a settings file whose entry for
key `k` has a string where the expiration belongs and two names as data. -/
def badExpirationStore : Viper :=
  { override := []
    config :=
      [("cache", .obj [("k",
          .obj [("expiration", .str "soon"), ("data", .arr [.str "a", .str "b"])])])] }

/-- The store of a process that has loaded a settings file whose entry for
key `k` has a number among the names. -/
def badElementStore : Viper :=
  { override := []
    config :=
      [("cache", .obj [("k",
          .obj [("expiration", .num 0), ("data", .arr [.str "a", .num 1])])])] }

/-- The store of a process that has loaded a settings file in which an
earlier run persisted an empty, non-nil location mapping and the database
name `a`, both never expiring. -/
def emptyLocationsStore : Viper :=
  { override := []
    config :=
      [("cache", .obj
        [("locations", .obj [("expiration", .num 0), ("data", .obj [])]),
         ("database_names", .obj [("expiration", .num 0), ("data", .arr [.str "a"])])])] }

/-- A store whose overrides hold the string `x` at the key `cache` while
the loaded settings file holds the database name `a`. -/
def shadowedStore : Viper :=
  { override := [("cache", .str "x")]
    config :=
      [("cache", .obj
        [("database_names", .obj [("expiration", .num 0), ("data", .arr [.str "a"])])])] }

/-! ## Settings files that survive the rewrite by `invalidateCache` -/

/-- A key that viper leaves as it is: not empty, without `.`, in lower
case. -/
def goodKey (k : String) : Bool :=
  k != "" && !k.data.contains '.' && lowerKey k == k

mutual
/-- Whether a value is one `encoding/json` decodes into `interface{}` (nil,
booleans, numbers, strings, and slices and maps of such values) in which
the keys of every map are in lower case. -/
def isLowerJSON : Value → Bool
  | .null => true
  | .bool _ => true
  | .num _ => true
  | .str _ => true
  | .arr xs => isLowerJSONList xs
  | .obj kvs => isLowerJSONFields kvs
  | _ => false
/-- The elements of a slice are JSON values with lower-case keys. -/
def isLowerJSONList : List Value → Bool
  | [] => true
  | x :: xs => isLowerJSON x && isLowerJSONList xs
/-- The members of a map are JSON values under lower-case keys. -/
def isLowerJSONFields : List (String × Value) → Bool
  | [] => true
  | (k, x) :: rest => lowerKey k == k && isLowerJSON x && isLowerJSONFields rest
end

mutual
/-- Whether a value of the settings file is kept by the rewrite through
`AllSettings`, JSON and `ReadConfig`: a leaf is a boolean, a number, a
string or a slice of JSON values with lower-case keys, a map has at least
one member, and the members of a map are well formed under distinct good
keys. -/
def wellFormedValue : Value → Bool
  | .bool _ => true
  | .num _ => true
  | .str _ => true
  | .arr xs => isLowerJSONList xs
  | .obj kvs => !kvs.isEmpty && wellFormedFields kvs
  | _ => false
/-- The members of a map of the settings file. -/
def wellFormedFields : List (String × Value) → Bool
  | [] => true
  | (k, x) :: rest =>
    goodKey k && !rest.any (fun kv => kv.1 == k) && wellFormedValue x && wellFormedFields rest
end

/-- The keys of a map are good and distinct. -/
def distinctGoodKeys : List (String × Value) → Bool
  | [] => true
  | (k, _) :: rest => goodKey k && !rest.any (fun kv => kv.1 == k) && distinctGoodKeys rest

/-- Whether the settings file is well formed at a path: every map met on
the way down the path has good, distinct keys, and the value found at the
path is well formed. -/
def wellFormedAt : Document → List String → Bool
  | _, [] => false
  | m, [k] =>
    distinctGoodKeys m &&
      (match mapGet m k with
        | some x => wellFormedValue x
        | none => false)
  | m, k :: k2 :: rest =>
    distinctGoodKeys m &&
      (match mapGet m k with
        | some (.obj m2) => wellFormedAt m2 (k2 :: rest)
        | _ => false)

/-- Whether no key that `viper.Set` wrote is `key` itself, lies above it or
lies under it: the path of every key the overrides hold, as viper's
`AllKeys` lists them, and the path of `key` part ways. -/
def overrideClear (v : Viper) (key : String) : Bool :=
  (flattenLoop [] "" v.override).all (fun s =>
    !(splitKey s).isPrefixOf (splitKey (lowerKey key)) &&
    !(splitKey (lowerKey key)).isPrefixOf (splitKey s))

/-- Assignment of `x` at the path `p` of a nested map, as `AllSettings` does
it for one key. -/
def putAt (m : Document) (p : List String) (x : Value) : Document :=
  setDeep m p.dropLast (p.getLastD "") x

/-- The map found at a path of a nested map, empty when there is none. -/
def subAt (m : Document) (q : List String) : Document :=
  match searchMap m q with
  | .obj a => a
  | _ => []

mutual
/-- The keys viper's flattening lists for a value stored under `f`. -/
def leafKeysValue (f : String) : Value → List String
  | .obj m => leafKeysFields (f ++ ".") m
  | _ => [f]
/-- The keys viper's flattening lists for the members of a map. -/
def leafKeysFields (pfx : String) : List (String × Value) → List String
  | [] => []
  | (k, x) :: rest => leafKeysValue (pfx ++ k) x ++ leafKeysFields pfx rest
end

mutual
/-- The leaves of a value found at path `p`, each with its path. -/
def leavesValue (p : List String) : Value → List (List String × Value)
  | .obj m => leavesFields p m
  | x => [(p, x)]
/-- The leaves of the members of a map found at path `p`. -/
def leavesFields (p : List String) : List (String × Value) → List (List String × Value)
  | [] => []
  | (k, x) :: rest => leavesValue (p ++ [k]) x ++ leavesFields p rest
end

/-- A run of assignments at paths, in order. -/
def putAll (m : Document) (L : List (List String × Value)) : Document :=
  L.foldl (fun acc pv => putAt acc pv.1 pv.2) m

/-- Viper `find` from the path of the key on. -/
def Viper.findAt (v : Viper) (path : List String) : Value :=
  let val := searchMap v.override path
  if !val.isNull then val
  else if decide (path.length > 1) && isPathShadowedInDeepMap path v.override != "" then .null
  else searchIndexableWithPathPrefixes path.length (.obj v.config) path

/-- The keys of a map are in lower case, without `.`, and distinct. -/
def cleanKeys (m : Document) : Prop :=
  (∀ kv ∈ m, '.' ∉ kv.1.data ∧ lowerKey kv.1 = kv.1) ∧ (m.map Prod.fst).Nodup

/-- The maps met on the way down a path all have clean keys. -/
def cleanAlong : Document → List String → Prop
  | _, [] => True
  | m, k :: rest =>
    cleanKeys m ∧
      (match mapGet m k with
        | some (.obj m2) => cleanAlong m2 rest
        | _ => True)

/-! ## `getCache` as a step on the store -/

/-- The call `viper.Get(key)` as a step on the store: the value found and
the store after the call.  Viper's `Get` walks the layers through `find`
and assigns to no field of the store, so the store is handed on. -/
def Viper.GetStep (v : Viper) (key : String) : Value × Viper :=
  (v.find (lowerKey key), v)

/-- The function `getCache` (cache.go l.34-46) as a step on the store, with
`now` the value of `time.Now().Unix()`: the returned data and error, and
the store after the call.  The store is threaded through the one call into
viper the body makes; `mapstructure.Decode` writes the local `entry`
alone. -/
def getCacheRun (T : Type) [GoType T] (key : String) (now : Int) (v : Viper) :
    (T × Option CacheError) × Viper :=
  let entry : Entry T := { Expiration := 0, Data := GoType.zero }
  let got := v.GetStep (cacheKey key)
  let value := got.1
  let v := got.2
  let r := Decode value entry
  if r.2 then ((r.1.Data, some (.decodeFailed key)), v)
  else if r.1.Expiration ≠ 0 ∧ r.1.Expiration < now then ((r.1.Data, some .ErrExpired), v)
  else ((r.1.Data, none), v)

end Model

/-! ## Maps, paths and arithmetic: lemmas -/

theorem splitOnDot_ne_nil (cs : List Char) : splitOnDot cs ≠ [] := by
  cases cs with
  | nil => simp [splitOnDot]
  | cons c cs =>
    simp only [splitOnDot]
    split
    · simp
    · split <;> simp

theorem splitOnDot_dotless (cs : List Char) (h : '.' ∉ cs) : splitOnDot cs = [cs] := by
  induction cs with
  | nil => rfl
  | cons c rest ih =>
    have hc : c ≠ '.' := fun hc => h (by simp [hc])
    have hr : '.' ∉ rest := fun hr => h (by simp [hr])
    simp [splitOnDot, hc, ih hr]

theorem splitKey_ne_nil (s : String) : splitKey s ≠ [] := by
  simp [splitKey, splitOnDot_ne_nil]

theorem dropLast_append_getLastD (path : List String) (h : path ≠ []) :
    path.dropLast ++ [path.getLastD ""] = path := by
  induction path with
  | nil => exact absurd rfl h
  | cons a rest ih =>
    cases rest with
    | nil => rfl
    | cons b rest' =>
      have := ih (by simp)
      simp only [List.dropLast_cons₂, List.cons_append, List.getLastD_cons] at this ⊢
      rw [this]

theorem getLastD_mem (path : List String) (h : path ≠ []) : path.getLastD "" ∈ path := by
  have := dropLast_append_getLastD path h
  rw [← this]; simp

theorem mapGet_mapSet_same (m : Document) (k : String) (x : Value) :
    mapGet (mapSet m k x) k = some x := by
  induction m with
  | nil => simp [mapSet, mapGet]
  | cons kv rest ih =>
    obtain ⟨k', y⟩ := kv
    by_cases h : k' = k
    · simp [mapSet, mapGet, h]
    · simp [mapSet, mapGet, h, ih]

theorem mapGet_mapSet_other (m : Document) (k k2 : String) (x : Value) (h : k ≠ k2) :
    mapGet (mapSet m k x) k2 = mapGet m k2 := by
  induction m with
  | nil => simp [mapSet, mapGet, h]
  | cons kv rest ih =>
    obtain ⟨k', y⟩ := kv
    by_cases h1 : k' = k
    · subst h1; simp [mapSet, mapGet, h]
    · by_cases h2 : k' = k2
      · subst h2; simp [mapSet, mapGet, h1]
      · simp [mapSet, mapGet, h1, h2, ih]

theorem searchMap_setDeep (init : List String) (m : Document) (lastKey : String) (x : Value) :
    searchMap (setDeep m init lastKey x) (init ++ [lastKey]) = x := by
  induction init generalizing m with
  | nil => simp [setDeep, searchMap, mapGet_mapSet_same]
  | cons k rest ih =>
    have hcons : ∃ a l, rest ++ [lastKey] = a :: l := by
      cases rest with
      | nil => exact ⟨_, _, rfl⟩
      | cons a l => exact ⟨_, _, rfl⟩
    obtain ⟨a, l, hal⟩ := hcons
    have step : ∀ inner : Document, searchMap (mapSet m k (.obj inner)) (k :: (rest ++ [lastKey]))
        = searchMap inner (rest ++ [lastKey]) := by
      intro inner
      rw [hal]
      simp [searchMap, mapGet_mapSet_same]
    simp only [setDeep, List.cons_append]
    split
    · rw [step, ih]
    · rw [step, ih]

theorem wrapInt64_of_inRange (x : Int) (hlo : minInt64 ≤ x) (hhi : x ≤ maxInt64) :
    wrapInt64 x = x := by
  unfold wrapInt64
  unfold minInt64 at hlo
  unfold maxInt64 at hhi
  norm_num at hlo hhi ⊢
  omega

theorem Decode_box {T : Type} [GoType T] (e entry : Entry T) :
    Decode e.box entry = (e, false) := by
  simp [Decode, Entry.box, GoType.unbox_box]

theorem searchMap_setDeep_fresh (init : List String) (l1 l2 : String) (x : Value) (h : l2 ≠ l1) :
    searchMap (setDeep [] init l2 x) (init ++ [l1]) = .null := by
  induction init with
  | nil => simp [setDeep, mapSet, searchMap, mapGet, h]
  | cons k rest ih =>
    have hcons : ∃ a l, rest ++ [l1] = a :: l := by
      cases rest with
      | nil => exact ⟨_, _, rfl⟩
      | cons a l => exact ⟨_, _, rfl⟩
    obtain ⟨a, l, hal⟩ := hcons
    have step : searchMap [(k, .obj (setDeep [] rest l2 x))] (k :: (rest ++ [l1]))
        = searchMap (setDeep [] rest l2 x) (rest ++ [l1]) := by
      rw [hal]
      simp [searchMap, mapGet]
    simp only [setDeep, mapGet, mapSet, List.cons_append]
    rw [step, ih]

/-- Writing under one key leaves the override a sibling key finds (same
parent path, different last segment) as it was. -/
theorem searchMap_setDeep_sibling (init : List String) (m : Document) (l1 l2 : String)
    (x : Value) (h : l2 ≠ l1) :
    searchMap (setDeep m init l2 x) (init ++ [l1]) = searchMap m (init ++ [l1]) := by
  induction init generalizing m with
  | nil => simp [setDeep, searchMap, mapGet_mapSet_other _ _ _ _ h]
  | cons k rest ih =>
    have hcons : ∃ a l, rest ++ [l1] = a :: l := by
      cases rest with
      | nil => exact ⟨_, _, rfl⟩
      | cons a l => exact ⟨_, _, rfl⟩
    obtain ⟨a, l, hal⟩ := hcons
    have step : ∀ inner : Document, searchMap (mapSet m k (.obj inner)) (k :: (rest ++ [l1]))
        = searchMap inner (rest ++ [l1]) := by
      intro inner
      rw [hal]
      simp [searchMap, mapGet_mapSet_same]
    simp only [setDeep, List.cons_append]
    split
    · rename_i m3 hm
      rw [step, ih]
      rw [hal]
      simp [searchMap, hm]
    · rename_i hm
      rw [step, searchMap_setDeep_fresh _ _ _ _ h]
      rw [hal]
      simp only [searchMap]
      cases hg : mapGet m k with
      | none => rfl
      | some next =>
        cases next with
        | obj m3 => exact absurd hg (hm m3)
        | _ => rfl

/-- The stored expiration is an `int64` congruent to `now + ttl` modulo
2^64 when the time-to-live is positive. -/
theorem storedExpiration_int64 (ttl now : Int) (httl : 0 < ttl) :
    (storedExpiration ttl now - (now + ttl)) % 2 ^ 64 = 0 ∧
    minInt64 ≤ storedExpiration ttl now ∧ storedExpiration ttl now ≤ maxInt64 := by
  unfold storedExpiration wrapInt64 minInt64 maxInt64
  rw [if_pos httl]
  norm_num
  omega

/-- The stored expiration is `now + ttl` itself when that is an `int64`. -/
theorem storedExpiration_inRange (ttl now : Int) (httl : 0 < ttl)
    (hlo : minInt64 ≤ now + ttl) (hhi : now + ttl ≤ maxInt64) :
    storedExpiration ttl now = now + ttl := by
  unfold storedExpiration
  rw [if_pos httl]
  exact wrapInt64_of_inRange _ hlo hhi

/-- After `Set` every prefix of the parent path of the written key holds a
map in the overrides. -/
theorem searchMap_setDeep_take (init : List String) (m : Document) (l : String) (x : Value)
    (i : Nat) : ∃ m2, searchMap (setDeep m init l x) (init.take i) = .obj m2 := by
  induction init generalizing m i with
  | nil => exact ⟨setDeep m [] l x, by simp [searchMap]⟩
  | cons k rest ih =>
    cases i with
    | zero => exact ⟨setDeep m (k :: rest) l x, by simp [searchMap]⟩
    | succ j =>
      have key : ∀ m3 : Document,
          ∃ m2, searchMap (mapSet m k (.obj (setDeep m3 rest l x))) (k :: rest.take j)
            = .obj m2 := by
        intro m3
        obtain ⟨m2, hm2⟩ := ih m3 j
        cases ht : rest.take j with
        | nil => exact ⟨setDeep m3 rest l x, by simp [searchMap, mapGet_mapSet_same]⟩
        | cons a tl =>
          rw [ht] at hm2
          refine ⟨m2, ?_⟩
          have hstep : searchMap (mapSet m k (.obj (setDeep m3 rest l x))) (k :: a :: tl)
              = searchMap (setDeep m3 rest l x) (a :: tl) := by
            simp [searchMap, mapGet_mapSet_same]
          rw [hstep, hm2]
      simp only [setDeep, List.take_succ_cons]
      split
      · exact key _
      · exact key _

theorem isPathShadowedLoop_of_maps (path : List String) (m : Document) (is : List Nat)
    (h : ∀ i ∈ is, ∃ m2, searchMap m (path.take i) = .obj m2) :
    isPathShadowedLoop path m is = "" := by
  induction is with
  | nil => rfl
  | cons i rest ih =>
    obtain ⟨m2, hm2⟩ := h i (by simp)
    simp only [isPathShadowedLoop, hm2]
    exact ih (fun j hj => h j (by simp [hj]))

/-- After `Set` no key with the same parent path is shadowed in the
overrides. -/
theorem isPathShadowed_setDeep (path : List String) (m : Document) (l : String) (x : Value)
    (hne : path ≠ []) :
    isPathShadowedInDeepMap path (setDeep m path.dropLast l x) = "" := by
  apply isPathShadowedLoop_of_maps
  intro i hi
  have hlt : i < path.length := List.mem_range.mp (List.mem_of_mem_tail hi)
  have htake : path.take i = path.dropLast.take i := by
    conv_lhs => rw [← dropLast_append_getLastD path hne]
    apply List.take_append_of_le_length
    rw [List.length_dropLast]
    omega
  rw [htake]
  exact searchMap_setDeep_take _ _ _ _ _

theorem cacheKey_injective (a b : String) (h : cacheKey a = cacheKey b) : a = b := by
  have hd : (cacheKey a).data = (cacheKey b).data := by rw [h]
  simp only [cacheKey, String.data_append] at hd
  exact String.ext (List.append_cancel_left hd)

theorem isPathShadowed_cache (l : String) (v : Viper) (hc : cacheShadowed v = false) :
    isPathShadowedInDeepMap ["cache", l] v.override = "" := by
  unfold cacheShadowed at hc
  have hr : (List.range ["cache", l].length).tail = [1] := rfl
  unfold isPathShadowedInDeepMap
  rw [hr]
  simp only [isPathShadowedLoop, List.take]
  cases hv : searchMap v.override ["cache"] <;> simp_all

/-! ## Assignments at paths, flattened keys and JSON: lemmas -/

theorem putAt_single (m : Document) (a : String) (x : Value) : putAt m [a] x = mapSet m a x := rfl

theorem putAt_cons (m : Document) (a b : String) (r : List String) (x : Value) :
    putAt m (a :: b :: r) x = mapSet m a (.obj (putAt (subAt m [a]) (b :: r) x)) := by
  have hd : (a :: b :: r).dropLast = a :: (b :: r).dropLast := rfl
  have hl : (a :: b :: r).getLastD "" = (b :: r).getLastD "" := rfl
  unfold putAt
  rw [hd, hl]
  simp only [setDeep, subAt, searchMap]
  cases hg : mapGet m a with
  | none => rfl
  | some next => cases next <;> rfl

theorem searchMap_nil_cons (a : String) (r : List String) : searchMap [] (a :: r) = .null := by
  simp [searchMap, mapGet]

theorem searchMap_cons_cons (m : Document) (a b : String) (r : List String) :
    searchMap m (a :: b :: r) = searchMap (subAt m [a]) (b :: r) := by
  simp only [searchMap, subAt]
  cases hg : mapGet m a with
  | none => simp [mapGet]
  | some next => cases next <;> simp [mapGet]

theorem subAt_cons_cons (m : Document) (a b : String) (r : List String) :
    subAt m (a :: b :: r) = subAt (subAt m [a]) (b :: r) := by
  unfold subAt
  rw [searchMap_cons_cons]
  rfl

/-- Assigning at a path leaves what is found at a path that parts ways with
it. -/
theorem searchMap_putAt_diverge (p q : List String) (m : Document) (x : Value)
    (h1 : ¬ p <+: q) (h2 : ¬ q <+: p) :
    searchMap (putAt m p x) q = searchMap m q := by
  induction p generalizing m q with
  | nil => exact absurd (List.nil_prefix) h1
  | cons a p1 ih =>
    cases q with
    | nil => exact absurd (List.nil_prefix) h2
    | cons b q1 =>
      by_cases hab : a = b
      · subst hab
        cases p1 with
        | nil => exact absurd (by simp) h1
        | cons a2 p2 =>
          cases q1 with
          | nil => exact absurd (by simp) h2
          | cons b2 q2 =>
            have h1' : ¬ (a2 :: p2) <+: (b2 :: q2) := fun h => h1 (by simpa using h)
            have h2' : ¬ (b2 :: q2) <+: (a2 :: p2) := fun h => h2 (by simpa using h)
            rw [putAt_cons, searchMap_cons_cons, searchMap_cons_cons]
            have hs : subAt (mapSet m a (.obj (putAt (subAt m [a]) (a2 :: p2) x))) [a]
                = putAt (subAt m [a]) (a2 :: p2) x := by
              simp [subAt, searchMap, mapGet_mapSet_same]
            rw [hs]
            exact ih _ _ h1' h2'
      · have hput : ∃ y, putAt m (a :: p1) x = mapSet m a y := by
          cases p1 with
          | nil => exact ⟨x, rfl⟩
          | cons a2 p2 => exact ⟨_, putAt_cons m a a2 p2 x⟩
        obtain ⟨y, hy⟩ := hput
        rw [hy]
        simp only [searchMap, mapGet_mapSet_other _ _ _ _ hab]

/-- Assigning under a path: what is found at the path is the map found
there before, with the assignment made in it. -/
theorem searchMap_putAt_under (q r : List String) (m : Document) (x : Value) (hr : r ≠ []) :
    searchMap (putAt m (q ++ r) x) q = .obj (putAt (subAt m q) r x) := by
  induction q generalizing m with
  | nil => simp [searchMap, subAt]
  | cons a q1 ih =>
    obtain ⟨b, t, hbt⟩ : ∃ b t, q1 ++ r = b :: t := by
      cases q1 with
      | nil =>
        cases r with
        | nil => exact absurd rfl hr
        | cons b t => exact ⟨b, t, rfl⟩
      | cons b t => exact ⟨b, t ++ r, rfl⟩
    have hput : putAt m (a :: q1 ++ r) x
        = mapSet m a (.obj (putAt (subAt m [a]) (q1 ++ r) x)) := by
      simp only [List.cons_append]
      rw [hbt]
      exact putAt_cons m a b t x
    rw [hput]
    cases q1 with
    | nil =>
      simp [searchMap, mapGet_mapSet_same]
    | cons b2 q2 =>
      rw [searchMap_cons_cons, subAt_cons_cons]
      have hs : subAt (mapSet m a (.obj (putAt (subAt m [a]) (b2 :: q2 ++ r) x))) [a]
          = putAt (subAt m [a]) (b2 :: q2 ++ r) x := by
        simp [subAt, searchMap, mapGet_mapSet_same]
      rw [hs]
      exact ih _

/-- Assigning at a path: the value is found there. -/
theorem searchMap_putAt_same (q : List String) (m : Document) (x : Value) (hq : q ≠ []) :
    searchMap (putAt m q x) q = x := by
  have := searchMap_setDeep q.dropLast m (q.getLastD "") x
  rw [dropLast_append_getLastD q hq] at this
  exact this

theorem mapSet_of_not_mem (m : Document) (k : String) (x : Value) (h : mapGet m k = none) :
    mapSet m k x = m ++ [(k, x)] := by
  induction m with
  | nil => rfl
  | cons kv rest ih =>
    obtain ⟨k', y⟩ := kv
    by_cases hk : k' = k
    · simp [mapGet, hk] at h
    · simp only [mapGet, hk, if_false] at h
      simp [mapSet, hk, ih h]

theorem mapSet_mapSet (m : Document) (k : String) (x y : Value) :
    mapSet (mapSet m k x) k y = mapSet m k y := by
  induction m with
  | nil => simp [mapSet]
  | cons kv rest ih =>
    obtain ⟨k', z⟩ := kv
    by_cases hk : k' = k
    · simp [mapSet, hk]
    · simp [mapSet, hk, ih]

theorem mapGet_append (m1 m2 : Document) (k : String) :
    mapGet (m1 ++ m2) k = (mapGet m1 k).orElse (fun _ => mapGet m2 k) := by
  induction m1 with
  | nil => rfl
  | cons kv rest ih =>
    obtain ⟨k', z⟩ := kv
    by_cases hk : k' = k
    · simp [mapGet, hk]
    · simp [mapGet, hk, ih]

theorem mapGet_eq_none_iff (m : Document) (k : String) :
    mapGet m k = none ↔ ∀ kv ∈ m, kv.1 ≠ k := by
  induction m with
  | nil => simp [mapGet]
  | cons kv rest ih =>
    obtain ⟨k', z⟩ := kv
    by_cases hk : k' = k
    · simp [mapGet, hk]
    · simp [mapGet, hk, ih]

theorem putAll_append (m : Document) (L1 L2 : List (List String × Value)) :
    putAll m (L1 ++ L2) = putAll (putAll m L1) L2 := by
  simp [putAll, List.foldl_append]

theorem putAll_cons (m : Document) (pv : List String × Value) (L : List (List String × Value)) :
    putAll m (pv :: L) = putAll (putAt m pv.1 pv.2) L := rfl

mutual
theorem leavesValue_shift (p q : List String) :
    ∀ x : Value, leavesValue (p ++ q) x = (leavesValue q x).map (fun pv => (p ++ pv.1, pv.2))
  | .obj m => by
    simp only [leavesValue]
    exact leavesFields_shift p q m
  | .null => rfl
  | .bool _ => rfl
  | .num _ => rfl
  | .str _ => rfl
  | .arr _ => rfl
  | .strs _ => rfl
  | .strMap _ => rfl
  | .entry _ _ _ => rfl
theorem leavesFields_shift (p q : List String) :
    ∀ m : List (String × Value),
      leavesFields (p ++ q) m = (leavesFields q m).map (fun pv => (p ++ pv.1, pv.2))
  | [] => rfl
  | (k, x) :: rest => by
    simp only [leavesFields, List.map_append]
    rw [leavesFields_shift p q rest, List.append_assoc, leavesValue_shift p (q ++ [k]) x]
end

theorem leavesFields_nil_paths (m : List (String × Value)) :
    ∀ pv ∈ leavesFields [] m, pv.1 ≠ [] := by
  induction m with
  | nil => intro pv h; simp [leavesFields] at h
  | cons kv rest ih =>
    obtain ⟨k, x⟩ := kv
    intro pv h
    simp only [leavesFields, List.mem_append] at h
    rcases h with h | h
    · have hs := leavesValue_shift [k] [] x
      simp only [List.nil_append, List.append_nil] at hs h
      rw [hs] at h
      obtain ⟨pv2, _, rfl⟩ := List.mem_map.mp h
      simp
    · exact ih pv h

/-- A run of assignments under one key amounts to one assignment of the
map they build. -/
theorem putAll_under_key (k : String) (L : List (List String × Value))
    (hp : ∀ pv ∈ L, pv.1 ≠ []) (hne : L ≠ []) (acc : Document) :
    putAll acc (L.map (fun pv => (k :: pv.1, pv.2)))
      = mapSet acc k (.obj (putAll (subAt acc [k]) L)) := by
  induction L generalizing acc with
  | nil => exact absurd rfl hne
  | cons pv rest ih =>
    obtain ⟨r, y⟩ := pv
    have hr : r ≠ [] := hp (r, y) (by simp)
    obtain ⟨b, t, rfl⟩ : ∃ b t, r = b :: t := by
      cases r with
      | nil => exact absurd rfl hr
      | cons b t => exact ⟨b, t, rfl⟩
    simp only [List.map_cons, putAll_cons]
    rw [putAt_cons]
    by_cases hrest : rest = []
    · subst hrest
      simp [putAll]
    · rw [ih (fun pv h => hp pv (by simp [h])) hrest]
      have hs : subAt (mapSet acc k (.obj (putAt (subAt acc [k]) (b :: t) y))) [k]
          = putAt (subAt acc [k]) (b :: t) y := by
        simp [subAt, searchMap, mapGet_mapSet_same]
      rw [hs, mapSet_mapSet]

theorem subAt_of_not_mem (acc : Document) (k : String) (h : mapGet acc k = none) :
    subAt acc [k] = [] := by
  simp [subAt, searchMap, h]

theorem splitOnDot_append_dot (a b : List Char) :
    splitOnDot (a ++ '.' :: b) = splitOnDot a ++ splitOnDot b := by
  induction a with
  | nil => simp [splitOnDot]
  | cons c rest ih =>
    by_cases hc : c = '.'
    · simp [splitOnDot, hc, ih]
    · cases hs : splitOnDot rest with
      | nil => exact absurd hs (splitOnDot_ne_nil rest)
      | cons p ps =>
        have e2 : splitOnDot (c :: rest) = (c :: p) :: ps := by
          simp [splitOnDot, hc, hs]
        have e0 : splitOnDot (rest ++ '.' :: b) = p :: (ps ++ splitOnDot b) := by
          rw [ih, hs]; rfl
        have e1 : splitOnDot (c :: (rest ++ '.' :: b)) = (c :: p) :: (ps ++ splitOnDot b) := by
          simp [splitOnDot, hc, e0]
        rw [List.cons_append, e1, e2]; rfl

/-- Cutting `f.k` at the dots gives the pieces of `f` followed by those of
`k`. -/
theorem splitKey_append_dot (f k : String) :
    splitKey (f ++ "." ++ k) = splitKey f ++ splitKey k := by
  unfold splitKey
  have hd : (f ++ "." ++ k).data = f.data ++ '.' :: k.data := by
    simp [String.data_append]
  rw [hd, splitOnDot_append_dot, List.map_append]

theorem splitKey_dotless (k : String) (h : '.' ∉ k.data) : splitKey k = [k] := by
  unfold splitKey
  rw [splitOnDot_dotless _ h]
  rfl

theorem splitOnDot_mem_dotless (cs : List Char) : ∀ seg ∈ splitOnDot cs, '.' ∉ seg := by
  induction cs with
  | nil => intro seg h; simp [splitOnDot] at h; subst h; simp
  | cons c rest ih =>
    intro seg h
    by_cases hc : c = '.'
    · simp only [splitOnDot, hc, if_true, List.mem_cons] at h
      rcases h with h | h
      · subst h; simp
      · exact ih seg h
    · simp only [splitOnDot, hc, if_false] at h
      cases hs : splitOnDot rest with
      | nil => exact absurd hs (splitOnDot_ne_nil rest)
      | cons p ps =>
        rw [hs] at h ih
        simp only [List.mem_cons] at h
        rcases h with h | h
        · subst h
          intro hm
          simp only [List.mem_cons] at hm
          rcases hm with hm | hm
          · exact hc hm.symm
          · exact ih p (by simp) hm
        · exact ih seg (by simp [h])

/-- No piece of a key cut at the dots has a dot. -/
theorem splitKey_mem_dotless (s seg : String) (h : seg ∈ splitKey s) : '.' ∉ seg.data := by
  unfold splitKey at h
  obtain ⟨cs, hcs, rfl⟩ := List.mem_map.mp h
  exact splitOnDot_mem_dotless _ cs hcs

theorem prefix_same_length {α : Type} (a b r : List α) (ha : a <+: r) (hb : b <+: r)
    (hl : a.length = b.length) : a = b := by
  have h1 : a <+: b := (List.prefix_of_prefix_length_le ha hb (by omega))
  exact h1.eq_of_length hl

/-- A path under `P.k` and a path through `P.k0` with another `k0` part
ways. -/
theorem diverge_of_sibling (P r Q : List String) (k k0 : String) (hk : k ≠ k0)
    (hr : (P ++ [k]) <+: r) : ¬ r <+: (P ++ k0 :: Q) ∧ ¬ (P ++ k0 :: Q) <+: r := by
  have hk0 : (P ++ [k0]) <+: (P ++ k0 :: Q) := by
    have : P ++ k0 :: Q = (P ++ [k0]) ++ Q := by simp
    rw [this]
    exact List.prefix_append _ _
  constructor
  · intro h
    have h1 : (P ++ [k]) <+: (P ++ k0 :: Q) := hr.trans h
    have := prefix_same_length _ _ _ h1 hk0 (by simp)
    exact hk (by simpa using this)
  · intro h
    have h1 : (P ++ [k0]) <+: r := hk0.trans h
    have := prefix_same_length _ _ _ hr h1 (by simp)
    exact hk (by simpa using this)

theorem append_ne_empty (a k : String) (hk : k ≠ "") : a ++ k ≠ "" := by
  intro h
  apply hk
  have := congrArg String.data h
  simp [String.data_append] at this
  exact String.ext (by simp [this.2])

mutual
/-- The keys listed for a value stored under `f` lie at or under `f`. -/
theorem leafKeysValue_prefix : ∀ (x : Value) (f : String),
    ∀ s ∈ leafKeysValue f x, splitKey f <+: splitKey s
  | .obj m, f, s, h => by
    simp only [leafKeysValue] at h
    exact leafKeysFields_prefix m f s h
  | .null, f, s, h => by simp only [leafKeysValue, List.mem_singleton] at h; subst h; exact List.prefix_refl _
  | .bool _, f, s, h => by simp only [leafKeysValue, List.mem_singleton] at h; subst h; exact List.prefix_refl _
  | .num _, f, s, h => by simp only [leafKeysValue, List.mem_singleton] at h; subst h; exact List.prefix_refl _
  | .str _, f, s, h => by simp only [leafKeysValue, List.mem_singleton] at h; subst h; exact List.prefix_refl _
  | .arr _, f, s, h => by simp only [leafKeysValue, List.mem_singleton] at h; subst h; exact List.prefix_refl _
  | .strs _, f, s, h => by simp only [leafKeysValue, List.mem_singleton] at h; subst h; exact List.prefix_refl _
  | .strMap _, f, s, h => by simp only [leafKeysValue, List.mem_singleton] at h; subst h; exact List.prefix_refl _
  | .entry _ _ _, f, s, h => by simp only [leafKeysValue, List.mem_singleton] at h; subst h; exact List.prefix_refl _
/-- The keys listed for the members of the map under `f` lie under `f`. -/
theorem leafKeysFields_prefix : ∀ (m : List (String × Value)) (f : String),
    ∀ s ∈ leafKeysFields (f ++ ".") m, splitKey f <+: splitKey s
  | [], _, s, h => by simp [leafKeysFields] at h
  | (k, x) :: rest, f, s, h => by
    simp only [leafKeysFields, List.mem_append] at h
    rcases h with h | h
    · have := leafKeysValue_prefix x (f ++ "." ++ k) s h
      rw [splitKey_append_dot] at this
      exact (List.prefix_append _ _).trans this
    · exact leafKeysFields_prefix rest f s h
end

theorem mapGet_split (m : Document) (k : String) (x : Value) (h : mapGet m k = some x) :
    ∃ before after, m = before ++ (k, x) :: after ∧ ∀ kv ∈ before, kv.1 ≠ k := by
  induction m with
  | nil => simp [mapGet] at h
  | cons kv rest ih =>
    obtain ⟨k2, y⟩ := kv
    by_cases hk : k2 = k
    · subst hk
      simp only [mapGet, if_true, Option.some.injEq] at h
      subst h
      exact ⟨[], rest, rfl, by simp⟩
    · simp only [mapGet, hk, if_false] at h
      obtain ⟨b, a, hm, hb⟩ := ih h
      refine ⟨(k2, y) :: b, a, by simp [hm], ?_⟩
      intro kv hkv
      simp only [List.mem_cons] at hkv
      rcases hkv with hkv | hkv
      · subst hkv; exact hk
      · exact hb kv hkv

theorem searchMap_cons_some (m : Document) (k : String) (r : List String) (x : Value)
    (h : searchMap m (k :: r) = x) (hx : x.isNull = false) :
    ∃ next, mapGet m k = some next ∧
      ((r = [] ∧ x = next) ∨ (r ≠ [] ∧ ∃ m2, next = .obj m2 ∧ searchMap m2 r = x)) := by
  cases hg : mapGet m k with
  | none =>
    simp only [searchMap, hg] at h
    subst h
    simp [Value.isNull] at hx
  | some next =>
    refine ⟨next, rfl, ?_⟩
    cases r with
    | nil =>
      simp only [searchMap, hg] at h
      exact Or.inl ⟨rfl, h.symm⟩
    | cons b t =>
      right
      refine ⟨by simp, ?_⟩
      cases next with
      | obj m2 =>
        simp only [searchMap, hg] at h
        exact ⟨m2, rfl, h⟩
      | _ =>
        simp only [searchMap, hg] at h
        subst h
        simp [Value.isNull] at hx

theorem searchMap_snoc (q : List String) (hq : q ≠ []) (c m : Document) (k : String)
    (h : searchMap c q = .obj m) :
    searchMap c (q ++ [k]) = (match mapGet m k with | some z => z | none => .null) := by
  induction q generalizing c with
  | nil => exact absurd rfl hq
  | cons a t ih =>
    cases hg : mapGet c a with
    | none => simp [searchMap, hg] at h
    | some next =>
      cases t with
      | nil =>
        simp only [searchMap, hg] at h
        subst h
        simp only [List.cons_append, List.nil_append, searchMap, hg]
        cases mapGet m k <;> rfl
      | cons b t2 =>
        cases next with
        | obj m2 =>
          simp only [searchMap, hg] at h
          have := ih (by simp) m2 h
          simp only [List.cons_append, searchMap, hg] at this ⊢
          exact this
        | _ => simp [searchMap, hg] at h

theorem searchMap_null_append (q r : List String) (m : Document) (h : searchMap m q = .null) :
    searchMap m (q ++ r) = .null := by
  induction q generalizing m with
  | nil => simp [searchMap] at h
  | cons a t ih =>
    cases hg : mapGet m a with
    | none => simp [searchMap, hg]
    | some next =>
      cases t with
      | nil =>
        simp only [searchMap, hg] at h
        subst h
        cases r with
        | nil => simp [searchMap, hg]
        | cons b r2 => simp [searchMap, hg]
      | cons b t2 =>
        cases next with
        | obj m2 =>
          simp only [searchMap, hg] at h
          have := ih m2 h
          simp only [List.cons_append, searchMap, hg] at this ⊢
          exact this
        | _ => simp [searchMap, hg]

theorem isPathShadowedLoop_congr (p q : List String) (m : Document) (is : List Nat)
    (h : ∀ i ∈ is, p.take i = q.take i) :
    isPathShadowedLoop p m is = isPathShadowedLoop q m is := by
  induction is with
  | nil => rfl
  | cons i rest ih =>
    have hi := h i (by simp)
    have hr := ih (fun j hj => h j (by simp [hj]))
    simp only [isPathShadowedLoop, hi, hr]

theorem isPathShadowedLoop_append_null (p : List String) (m : Document) (a : List Nat)
    (i : Nat) (b : List Nat) (ha : isPathShadowedLoop p m a = "")
    (hi : searchMap m (p.take i) = .null) :
    isPathShadowedLoop p m (a ++ i :: b) = "" := by
  induction a with
  | nil => simp [isPathShadowedLoop, hi]
  | cons j rest ih =>
    simp only [List.cons_append, isPathShadowedLoop] at ha ⊢
    cases hv : searchMap m (p.take j) with
    | null => rfl
    | obj m2 =>
      rw [hv] at ha
      exact ih ha
    | bool _ => rw [hv] at ha; exact ha
    | num _ => rw [hv] at ha; exact ha
    | str _ => rw [hv] at ha; exact ha
    | arr _ => rw [hv] at ha; exact ha
    | strs _ => rw [hv] at ha; exact ha
    | strMap _ => rw [hv] at ha; exact ha
    | entry _ _ _ => rw [hv] at ha; exact ha

/-- A key under a path that holds nothing and is not shadowed in a map is
not shadowed either. -/
theorem isPathShadowed_extend (q r : List String) (m : Document) (hq : q ≠ []) (hr : r ≠ [])
    (hs : isPathShadowedInDeepMap q m = "") (hn : searchMap m q = .null) :
    isPathShadowedInDeepMap (q ++ r) m = "" := by
  unfold isPathShadowedInDeepMap at hs ⊢
  obtain ⟨n, hn1⟩ : ∃ n, q.length = n + 1 := by
    cases q with
    | nil => exact absurd rfl hq
    | cons a t => exact ⟨t.length, rfl⟩
  obtain ⟨k, hk1⟩ : ∃ k, r.length = k + 1 := by
    cases r with
    | nil => exact absurd rfl hr
    | cons a t => exact ⟨t.length, rfl⟩
  have hsplit : (List.range (q ++ r).length).tail
      = (List.range q.length).tail ++ q.length :: (List.range k).map (fun j => q.length + (j + 1)) := by
    rw [List.length_append, List.range_add, hk1, List.range_succ_eq_map, List.map_cons,
      List.tail_append_of_ne_nil (by rw [hn1]; simp [List.range_succ_eq_map])]
    simp [List.map_map, Function.comp]
  rw [hsplit]
  apply isPathShadowedLoop_append_null
  · rw [← hs]
    apply isPathShadowedLoop_congr
    intro i hi
    have hlt : i < q.length := List.mem_range.mp (List.mem_of_mem_tail hi)
    exact List.take_append_of_le_length (by omega)
  · rw [List.take_left]
    exact hn

/-- Assignments under the path `q` act on the map found at `q`. -/
theorem putAll_project (q : List String) (L : List (List String × Value))
    (hp : ∀ pv ∈ L, pv.1 ≠ []) (hne : L ≠ []) (M : Document) :
    searchMap (putAll M (L.map (fun pv => (q ++ pv.1, pv.2)))) q
      = .obj (putAll (subAt M q) L) := by
  induction L generalizing M with
  | nil => exact absurd rfl hne
  | cons pv rest ih =>
    obtain ⟨r, y⟩ := pv
    have hr : r ≠ [] := hp (r, y) (by simp)
    simp only [List.map_cons, putAll_cons]
    by_cases hrest : rest = []
    · subst hrest
      simp only [List.map_nil, putAll, List.foldl_nil]
      exact searchMap_putAt_under q r M y hr
    · rw [ih (fun pv h => hp pv (by simp [h])) hrest]
      have : subAt (putAt M (q ++ r) y) q = putAt (subAt M q) r y := by
        have h1 := searchMap_putAt_under q r M y hr
        simp only [subAt, h1]
      rw [this]

theorem mapDelete_of_not_mem (m : Document) (k : String) (h : ∀ kv ∈ m, kv.1 ≠ k) :
    mapDelete m k = m := by
  induction m with
  | nil => rfl
  | cons kv rest ih =>
    obtain ⟨k2, y⟩ := kv
    have hk : k2 ≠ k := h (k2, y) (by simp)
    simp [mapDelete, hk, ih (fun kv hkv => h kv (by simp [hkv]))]

theorem mapGet_map (g : Value → Value) (m : Document) (k : String) :
    mapGet (m.map (fun kv => (kv.1, g kv.2))) k = (mapGet m k).map g := by
  induction m with
  | nil => rfl
  | cons kv rest ih =>
    obtain ⟨k2, y⟩ := kv
    by_cases hk : k2 = k
    · simp [mapGet, hk]
    · simp [mapGet, hk, ih]

theorem mem_mapSet (m : Document) (k : String) (x : Value) (kv : String × Value)
    (h : kv ∈ mapSet m k x) : kv.1 = k ∨ kv ∈ m := by
  induction m with
  | nil => simp [mapSet] at h; left; rw [h]
  | cons kv3 r3 ih3 =>
    obtain ⟨k3, y3⟩ := kv3
    by_cases hk3 : k3 = k
    · simp only [mapSet, hk3, if_true, List.mem_cons] at h
      rcases h with h | h
      · left; rw [h]
      · right; simp [h]
    · simp only [mapSet, hk3, if_false, List.mem_cons] at h
      rcases h with h | h
      · right; simp [h]
      · rcases ih3 h with h | h
        · left; exact h
        · right; simp [h]

theorem mapSet_keys_nodup (m : Document) (k : String) (x : Value)
    (h : (m.map Prod.fst).Nodup) : ((mapSet m k x).map Prod.fst).Nodup := by
  induction m with
  | nil => simp [mapSet]
  | cons kv rest ih =>
    obtain ⟨k2, y⟩ := kv
    simp only [List.map_cons, List.nodup_cons] at h
    by_cases hk : k2 = k
    · subst hk
      simp only [mapSet, if_true, List.map_cons, List.nodup_cons]
      exact h
    · simp only [mapSet, hk, if_false, List.map_cons, List.nodup_cons]
      refine ⟨?_, ih h.2⟩
      intro hmem
      obtain ⟨kv, hkv, hkk⟩ := List.mem_map.mp hmem
      rcases mem_mapSet rest k x kv hkv with h2 | h2
      · exact hk (hkk.symm.trans h2)
      · exact h.1 (List.mem_map.mpr ⟨kv, h2, hkk⟩)

theorem intercalate_go_dot (acc : String) (l : List String) (h : '.' ∈ acc.data) :
    '.' ∈ (String.intercalate.go acc "." l).data := by
  induction l generalizing acc with
  | nil => simpa [String.intercalate.go] using h
  | cons a t ih =>
    simp only [String.intercalate.go]
    apply ih
    simp [String.data_append, h]

/-- A path of two or more pieces joins to a key with a `.`. -/
theorem joinKey_dot (a b : String) (t : List String) : '.' ∈ (joinKey (a :: b :: t)).data := by
  unfold joinKey
  simp only [String.intercalate, String.intercalate.go]
  apply intercalate_go_dot
  simp [String.data_append]

theorem joinKey_single (a : String) : joinKey [a] = a := by
  simp [joinKey, String.intercalate, String.intercalate.go]

theorem firstNonNull_append_single (f : Nat → Value) (l : List Nat) (i : Nat)
    (h : ∀ j ∈ l, f j = .null) : firstNonNull f (l ++ [i]) = f i := by
  induction l with
  | nil =>
    simp only [List.nil_append, firstNonNull]
    cases hv : f i <;> simp [Value.isNull]
  | cons j rest ih =>
    simp only [List.cons_append, firstNonNull, h j (by simp), Value.isNull, if_true]
    exact ih (fun j hj => h j (by simp [hj]))

theorem candidates_eq (n : Nat) :
    (List.range (n + 1)).reverse.map (· + 1)
      = ((List.range n).reverse.map (· + 2)) ++ [1] := by
  rw [List.range_succ_eq_map]
  simp [List.map_reverse, List.map_map, Function.comp]

theorem jsonFields_eq_map (m : List (String × Value)) :
    jsonFields m = m.map (fun kv => (kv.1, jsonValue kv.2)) := by
  induction m with
  | nil => simp [jsonFields]
  | cons kv rest ih =>
    obtain ⟨k, x⟩ := kv
    simp [jsonFields, ih]

theorem mapGet_mem (m : Document) (k : String) (x : Value) (h : mapGet m k = some x) :
    (k, x) ∈ m := by
  obtain ⟨b, a, hm, _⟩ := mapGet_split m k x h
  rw [hm]; simp

theorem mapGet_of_mem_nodup (m : Document) (k : String) (x : Value)
    (hnd : (m.map Prod.fst).Nodup) (h : (k, x) ∈ m) : mapGet m k = some x := by
  induction m with
  | nil => simp at h
  | cons kv rest ih =>
    obtain ⟨k2, y⟩ := kv
    simp only [List.map_cons, List.nodup_cons] at hnd
    simp only [List.mem_cons, Prod.mk.injEq] at h
    rcases h with ⟨h1, h2⟩ | h
    · subst h1; subst h2
      simp [mapGet]
    · have hk : k2 ≠ k := by
        intro he
        subst he
        exact hnd.1 (List.mem_map.mpr ⟨(k2, x), h, rfl⟩)
      simp only [mapGet, hk, if_false]
      exact ih hnd.2 h

theorem putAll_diverge (q : List String) (L : List (List String × Value)) (M : Document)
    (h : ∀ pv ∈ L, ¬ pv.1 <+: q ∧ ¬ q <+: pv.1) :
    searchMap (putAll M L) q = searchMap M q := by
  induction L generalizing M with
  | nil => rfl
  | cons pv rest ih =>
    rw [putAll_cons, ih _ (fun pv h2 => h pv (by simp [h2]))]
    exact searchMap_putAt_diverge pv.1 q M pv.2 (h pv (by simp)).1 (h pv (by simp)).2

theorem filterMap_eq_map_of {α β : Type} (F : α → Option β) (g : α → β) (l : List α)
    (h : ∀ a ∈ l, F a = some (g a)) : l.filterMap F = l.map g := by
  induction l with
  | nil => rfl
  | cons a rest ih =>
    simp [List.filterMap_cons, h a (by simp), ih (fun b hb => h b (by simp [hb]))]

theorem isNull_eq_true (x : Value) (h : x.isNull = true) : x = .null := by
  cases x <;> simp [Value.isNull] at h ⊢

theorem isPathShadowed_single (a : String) (m : Document) :
    isPathShadowedInDeepMap [a] m = "" := rfl

theorem cacheKey_has_dot (k : String) : '.' ∈ (cacheKey k).data := by
  simp [cacheKey, String.data_append]

section Theorems

variable [UnicodeLower]

theorem toLower_eq_dot (c : Char) : UnicodeLower.toLower c = '.' ↔ c = '.' := by
  constructor
  · exact UnicodeLower.dot c
  · intro h
    subst h
    rw [UnicodeLower.ascii '.' (by decide)]
    rfl

/-- On a string of ASCII runes `strings.ToLower` is the lower-casing of the
letters `A`-`Z`, whatever the mapping does to other runes. -/
theorem lowerKey_eq_lowerASCII (s : String)
    (h : s.data.all (fun c => decide (c.toNat < 128)) = true) :
    lowerKey s = lowerASCII s := by
  have hmap : ∀ cs : List Char, cs.all (fun c => decide (c.toNat < 128)) = true →
      cs.map UnicodeLower.toLower = cs.map Char.toLower := by
    intro cs
    induction cs with
    | nil => intro _; rfl
    | cons c rest ih =>
      intro hall
      simp only [List.all_cons, Bool.and_eq_true, decide_eq_true_eq] at hall
      simp only [List.map_cons, UnicodeLower.ascii c hall.1, ih hall.2]
  unfold lowerKey lowerASCII
  rw [hmap _ h]

/-- On a string of ASCII runes already in lower case `strings.ToLower`
changes nothing. -/
theorem lowerKey_literal (s : String)
    (h1 : s.data.all (fun c => decide (c.toNat < 128)) = true) (h2 : lowerASCII s = s) :
    lowerKey s = s := by
  rw [lowerKey_eq_lowerASCII s h1, h2]

theorem splitOnDot_map_toLower (cs : List Char) :
    splitOnDot (cs.map UnicodeLower.toLower) = (splitOnDot cs).map (List.map UnicodeLower.toLower) := by
  induction cs with
  | nil => rfl
  | cons c cs ih =>
    simp only [List.map_cons, splitOnDot, toLower_eq_dot]
    by_cases h : c = '.'
    · simp [h, ih]
    · simp only [h, if_false, ih]
      cases hs : splitOnDot cs with
      | nil => exact absurd hs (splitOnDot_ne_nil cs)
      | cons p ps => simp

theorem map_toLower_idem (p : List Char) :
    (p.map UnicodeLower.toLower).map UnicodeLower.toLower = p.map UnicodeLower.toLower := by
  induction p with
  | nil => rfl
  | cons c cs ih => simp only [List.map_cons, UnicodeLower.idem, ih]

theorem lowerKey_lowerKey (s : String) : lowerKey (lowerKey s) = lowerKey s := by
  simp only [lowerKey, map_toLower_idem]

theorem lowerKey_of_mem_splitKey (key seg : String) (h : seg ∈ splitKey (lowerKey key)) :
    lowerKey seg = seg := by
  simp only [splitKey, lowerKey, splitOnDot_map_toLower, List.map_map, List.mem_map] at h
  obtain ⟨p, _, rfl⟩ := h
  simp only [lowerKey, Function.comp, map_toLower_idem]

theorem dotless_map_toLower (cs : List Char) (h : '.' ∉ cs) : '.' ∉ cs.map UnicodeLower.toLower := by
  intro hmem
  obtain ⟨c, hc, hcl⟩ := List.mem_map.mp hmem
  rw [(toLower_eq_dot c).mp hcl] at hc
  exact h hc

/-- The path viper derives from the namespaced key of a logical key
without `.`. -/
theorem splitKey_cacheKey (k : String) (h : '.' ∉ k.data) :
    splitKey (lowerKey (cacheKey k)) = ["cache", lowerKey k] := by
  have hd : (cacheKey k).data = ['c', 'a', 'c', 'h', 'e', '.'] ++ k.data := by
    simp [cacheKey]
  have hl := splitOnDot_dotless _ (dotless_map_toLower _ h)
  have hsplit : splitOnDot (((['c', 'a', 'c', 'h', 'e', '.'] : List Char) ++ k.data).map
      UnicodeLower.toLower) = [['c', 'a', 'c', 'h', 'e'], k.data.map UnicodeLower.toLower] := by
    have e : ((['c', 'a', 'c', 'h', 'e', '.'] : List Char) ++ k.data).map UnicodeLower.toLower
        = 'c' :: 'a' :: 'c' :: 'h' :: 'e' :: '.' :: k.data.map UnicodeLower.toLower := by
      simp only [List.map_append, List.map_cons, List.map_nil, List.cons_append,
        List.nil_append, UnicodeLower.ascii 'c' (by decide), UnicodeLower.ascii 'a' (by decide),
        UnicodeLower.ascii 'h' (by decide), UnicodeLower.ascii 'e' (by decide),
        UnicodeLower.ascii '.' (by decide)]
      rfl
    rw [e]
    simp [splitOnDot, hl]
  unfold splitKey lowerKey
  rw [hd, hsplit]
  rfl

theorem lowerKey_REGIONS : lowerKey REGIONS_CACHE_KEY = "locations" :=
  lowerKey_literal _ (by decide) (by decide)

theorem lowerKey_DEFAULT_REGION : lowerKey DEFAULT_REGION_CACHE_KEY = "defaultlocation" := by
  have hmap : ∀ cs : List Char, cs.all (fun c => decide (c.toNat < 128)) = true →
      cs.map UnicodeLower.toLower = cs.map Char.toLower := by
    intro cs
    induction cs with
    | nil => intro _; rfl
    | cons c rest ih =>
      intro hall
      simp only [List.all_cons, Bool.and_eq_true, decide_eq_true_eq] at hall
      simp only [List.map_cons, UnicodeLower.ascii c hall.1, ih hall.2]
  unfold lowerKey
  rw [hmap _ (by decide)]
  decide

theorem lowerKey_DB_NAMES : lowerKey DB_NAMES_CACHE_KEY = "database_names" :=
  lowerKey_literal _ (by decide) (by decide)

theorem splitKey_REGIONS :
    splitKey (lowerKey (cacheKey REGIONS_CACHE_KEY)) = ["cache", "locations"] := by
  rw [splitKey_cacheKey _ (by decide), lowerKey_REGIONS]

theorem splitKey_DEFAULT_REGION :
    splitKey (lowerKey (cacheKey DEFAULT_REGION_CACHE_KEY)) = ["cache", "defaultlocation"] := by
  rw [splitKey_cacheKey _ (by decide), lowerKey_DEFAULT_REGION]

/-- Reading a key back right after `Set` gives the value written, for any
value that is neither nil nor a generic map. -/
theorem Get_Set_same (v : Viper) (key : String) (x : Value)
    (hx : toCaseInsensitiveValue x = x) (hn : x.isNull = false) :
    (v.Set key x).Get key = x := by
  have hne := splitKey_ne_nil (lowerKey key)
  have hlast : lowerKey ((splitKey (lowerKey key)).getLastD "") = (splitKey (lowerKey key)).getLastD "" :=
    lowerKey_of_mem_splitKey key _ (getLastD_mem _ hne)
  have hs : searchMap (v.Set key x).override (splitKey (lowerKey key)) = x := by
    have := searchMap_setDeep (splitKey (lowerKey key)).dropLast v.override
      ((splitKey (lowerKey key)).getLastD "") x
    rw [dropLast_append_getLastD _ hne] at this
    simp only [Viper.Set, hlast, hx]
    exact this
  simp only [Viper.Get, Viper.find, hs, hn]
  simp

theorem Get_setCache {T : Type} [GoType T] (k : String) (ttl : Int) (x : T) (t0 : Int) (v : Viper) :
    (setCache k ttl x t0 v).1.Get (cacheKey k)
      = (Entry.box { Expiration := storedExpiration ttl t0, Data := x } : Value) := by
  unfold setCache storedExpiration
  by_cases h : ttl > 0
  · simp only [h, if_true]
    exact Get_Set_same _ _ _ rfl rfl
  · simp only [h, if_false]
    exact Get_Set_same _ _ _ rfl rfl

theorem getCache_setCache {T : Type} [GoType T] (k : String) (ttl : Int) (x : T) (t0 t : Int)
    (v : Viper) :
    getCache T k t (setCache k ttl x t0 v).1 =
      (x, if storedExpiration ttl t0 ≠ 0 ∧ storedExpiration ttl t0 < t
          then some CacheError.ErrExpired else none) := by
  unfold getCache
  simp only [Get_setCache, Decode_box]
  by_cases h : storedExpiration ttl t0 ≠ 0 ∧ storedExpiration ttl t0 < t
  · simp [h]
  · simp only [h, if_false]
    simp

/-- A value found in the overrides is what `Get` returns. -/
theorem Get_of_override (v : Viper) (key : String) (x : Value)
    (hs : searchMap v.override (splitKey (lowerKey key)) = x) (hn : x.isNull = false) :
    v.Get key = x := by
  simp only [Viper.Get, Viper.find, hs, hn]
  simp

/-- Reading key `key1` after `Set` on a sibling key `key2` still gives the
override `key1` had. -/
theorem Get_Set_sibling (v : Viper) (key1 key2 : String) (x y : Value)
    (hp : (splitKey (lowerKey key2)).dropLast = (splitKey (lowerKey key1)).dropLast)
    (hl : lowerKey ((splitKey (lowerKey key2)).getLastD "") ≠ (splitKey (lowerKey key1)).getLastD "")
    (hs : searchMap v.override (splitKey (lowerKey key1)) = y) (hn : y.isNull = false) :
    (v.Set key2 x).Get key1 = y := by
  apply Get_of_override _ _ _ _ hn
  have h1 := dropLast_append_getLastD _ (splitKey_ne_nil (lowerKey key1))
  rw [← h1] at hs ⊢
  simp only [Viper.Set, hp]
  rw [searchMap_setDeep_sibling _ _ _ _ _ hl]
  exact hs

theorem searchMap_setCache {T : Type} [GoType T] (k : String) (ttl : Int) (x : T) (t0 : Int)
    (v : Viper) :
    searchMap (setCache k ttl x t0 v).1.override (splitKey (lowerKey (cacheKey k)))
      = (Entry.box { Expiration := storedExpiration ttl t0, Data := x } : Value) := by
  have hne := splitKey_ne_nil (lowerKey (cacheKey k))
  have hlast := lowerKey_of_mem_splitKey (cacheKey k) _ (getLastD_mem _ hne)
  have := searchMap_setDeep (splitKey (lowerKey (cacheKey k))).dropLast v.override
    ((splitKey (lowerKey (cacheKey k))).getLastD "")
  rw [dropLast_append_getLastD _ hne] at this
  unfold setCache storedExpiration
  by_cases h : ttl > 0
  · simp only [h, if_true, Viper.Set, hlast]
    exact this _
  · simp only [h, if_false, Viper.Set, hlast]
    exact this _

/-- The function `invalidateCache` leaves the overrides written by `Set`
untouched: `ReadConfig` replaces the config layer only. -/
theorem invalidateCache_override (key : String) (v : Viper) :
    (invalidateCache key v).1.override = v.override := rfl

/-- Inside the `int64` range the entry `setCache` writes with a positive
time-to-live is read back fresh at every clock value below `t0 + ttl`. -/
theorem getCache_setCache_inRange {T : Type} [GoType T] (k : String) (ttl : Int) (x : T)
    (t0 t : Int) (v : Viper) (httl : 0 < ttl) (hwin : t < t0 + ttl)
    (hlo : minInt64 ≤ t0) (hhi : t0 + ttl ≤ maxInt64) :
    getCache T k t (setCache k ttl x t0 v).1 = (x, none) := by
  rw [getCache_setCache]
  have he : storedExpiration ttl t0 = t0 + ttl := by
    unfold storedExpiration
    rw [if_pos httl]
    exact wrapInt64_of_inRange _ (by omega) hhi
  rw [he, if_neg]
  omega

/-- C1, amended: for every key, value, store, `ttl > 0` and `int64` set
time `t0` whose sum `t0 + ttl` does not exceed the largest `int64`,
`setCache` at `t0` followed by `getCache` at any clock `t` with
`t0 <= t < t0 + ttl` returns the value and no error. -/
theorem setCache_getCache_within_ttl {T : Type} [GoType T] (k : String) (ttl : Int) (x : T)
    (t0 t : Int) (v : Viper) (httl : 0 < ttl) (_h0 : t0 ≤ t) (hwin : t < t0 + ttl)
    (hlo : minInt64 ≤ t0) (hhi : t0 + ttl ≤ maxInt64) :
    getCache T k t (setCache k ttl x t0 v).1 = (x, none) :=
  getCache_setCache_inRange k ttl x t0 t v httl hwin hlo hhi

/-- C2: for every key, value, store, set time and read time, `setCache`
with a time-to-live of 0 followed by `getCache` returns the value and no
error, so never `ErrExpired`. -/
theorem setCache_zero_ttl_never_expires {T : Type} [GoType T] (k : String) (x : T)
    (t0 t : Int) (v : Viper) :
    getCache T k t (setCache k 0 x t0 v).1 = (x, none) := by
  rw [getCache_setCache]
  simp [storedExpiration]

/-- C3, amended: whenever the store's `Get` on the namespaced key yields
nil, `getCache` returns the zero value of `T` and no error: decoding a nil
input sets nothing and succeeds. -/
theorem getCache_absent_key {T : Type} [GoType T] (k : String) (now : Int) (v : Viper)
    (h : v.Get (cacheKey k) = Value.null) :
    getCache T k now v = (GoType.zero, none) := by
  simp [getCache, h, Decode]

/-- C5: when the stored value decodes without error into an entry `e`,
`getCache` at clock `now` returns `e.Data` with no error if and only if
`e.Expiration = 0` or `e.Expiration >= now`, and with `ErrExpired`
otherwise; so `e.Expiration = now - 1` is expired, `e.Expiration = now + 1`
is fresh and `e.Expiration = now` is fresh.  In the case `now - 1` the
expiration is taken to be other than the 0 which the equivalence itself
makes fresh; that leaves out only the clock reading 1, one second after
the start of 1970. -/
theorem getCache_fresh_iff {T : Type} [GoType T] (k : String) (now : Int) (v : Viper)
    (e : Entry T)
    (hdec : Decode (v.Get (cacheKey k)) ({ Expiration := 0, Data := GoType.zero } : Entry T)
      = (e, false)) :
    getCache T k now v
        = (e.Data, if e.Expiration = 0 ∨ e.Expiration ≥ now then none
                   else some CacheError.ErrExpired) ∧
    ((getCache T k now v).2 = none ↔ (e.Expiration = 0 ∨ e.Expiration ≥ now)) ∧
    (e.Expiration = now - 1 → e.Expiration ≠ 0 →
      (getCache T k now v).2 = some CacheError.ErrExpired) ∧
    (e.Expiration = now + 1 → (getCache T k now v).2 = none) ∧
    (e.Expiration = now → (getCache T k now v).2 = none) := by
  have main : getCache T k now v
      = (e.Data, if e.Expiration = 0 ∨ e.Expiration ≥ now then none
                 else some CacheError.ErrExpired) := by
    unfold getCache
    simp only [hdec]
    by_cases h : e.Expiration = 0 ∨ e.Expiration ≥ now
    · have h2 : ¬ (e.Expiration ≠ 0 ∧ e.Expiration < now) := by omega
      simp [h, h2]
    · have h2 : e.Expiration ≠ 0 ∧ e.Expiration < now := by omega
      simp [h, h2]
  refine ⟨main, ?_, ?_, ?_, ?_⟩
  · rw [main]
    by_cases h : e.Expiration = 0 ∨ e.Expiration ≥ now <;> simp [h]
  · intro h1 h0
    rw [main, if_neg]
    omega
  · intro h1
    rw [main, if_pos]
    omega
  · intro h1
    rw [main, if_pos]
    omega

/-- C6: for every list of names, every store, every set time `t0` and
every read time `t` with `t0 <= t < t0 + 1800`, `SetDbNamesCache` at `t0`
followed by `GetDbNamesCache` at `t` returns the very list that was set.
The set time is a reading of `time.Now().Unix()`: an `int64` value for
which `t0 + 1800` is not above the largest `int64`, as every clock reading
of a running machine is. -/
theorem dbNames_round_trip (names : Option (List String)) (t0 t : Int) (v : Viper)
    (_h0 : t0 ≤ t) (hwin : t < t0 + 1800) (hlo : minInt64 ≤ t0) (hhi : t0 + 1800 ≤ maxInt64) :
    GetDbNamesCache t (SetDbNamesCache names t0 v) = names := by
  have httl : DB_NAMES_CACHE_TTL_SECONDS = 1800 := by decide
  unfold GetDbNamesCache SetDbNamesCache
  rw [httl, getCache_setCache_inRange _ _ _ _ _ _ (by decide) hwin hlo hhi]

/-- C7: `GetDbNamesCache` returns nil whenever `getCache` on
`database_names` returns an error, whatever the error; and after
`SetDbNamesCache` at clock `t0`, `GetDbNamesCache` at any clock
`t > t0 + 1800` returns nil and not the stale names.  The clock readings
are `int64` values with `t0 + 1800` different from 0, as every reading of a
clock that shows no time before 1970 (`t0 >= 0`) is. -/
theorem GetDbNamesCache_nil_on_error (v w : Viper) (now : Int) (names : Option (List String))
    (t0 t : Int) (hlo : minInt64 ≤ t0) (hhi : t ≤ maxInt64) (hgt : t0 + 1800 < t)
    (hne : t0 + 1800 ≠ 0) :
    ((getCache (Option (List String)) DB_NAMES_CACHE_KEY now v).2 ≠ none →
      GetDbNamesCache now v = none) ∧
    GetDbNamesCache t (SetDbNamesCache names t0 w) = none := by
  constructor
  · intro h
    unfold GetDbNamesCache
    cases hg : getCache (Option (List String)) DB_NAMES_CACHE_KEY now v with
    | mk data err =>
      cases err with
      | none => rw [hg] at h; exact absurd rfl h
      | some _ => rfl
  · unfold GetDbNamesCache SetDbNamesCache
    rw [getCache_setCache]
    have he : storedExpiration DB_NAMES_CACHE_TTL_SECONDS t0 = t0 + 1800 := by
      unfold storedExpiration
      rw [if_pos (by decide)]
      exact wrapInt64_of_inRange _ (by unfold DB_NAMES_CACHE_TTL_SECONDS; omega)
        (by unfold DB_NAMES_CACHE_TTL_SECONDS; omega)
    rw [he, if_pos ⟨hne, hgt⟩]

theorem setCache_fst {T : Type} [GoType T] (k : String) (ttl : Int) (x : T) (now : Int)
    (v : Viper) :
    (setCache k ttl x now v).1
      = v.Set (cacheKey k) (Entry.box { Expiration := storedExpiration ttl now, Data := x }) := by
  unfold setCache storedExpiration
  by_cases h : ttl > 0 <;> simp [h]

/-- After `SetLocationsCache` the store holds, under each of the two keys,
the entry its own `setCache` call built. -/
theorem Get_SetLocationsCache (m : Option (List (String × String))) (c : String)
    (now1 now2 : Int) (v : Viper) :
    (SetLocationsCache m c now1 now2 v).Get (cacheKey REGIONS_CACHE_KEY)
        = (Entry.box { Expiration := storedExpiration REGIONS_CACHE_TTL_SECONDS now1,
                       Data := m } : Value) ∧
    (SetLocationsCache m c now1 now2 v).Get (cacheKey DEFAULT_REGION_CACHE_KEY)
        = (Entry.box { Expiration := storedExpiration REGIONS_CACHE_TTL_SECONDS now2,
                       Data := c } : Value) := by
  constructor
  · unfold SetLocationsCache
    simp only []
    rw [setCache_fst DEFAULT_REGION_CACHE_KEY]
    refine Get_Set_sibling _ _ _ _ _ ?_ ?_ (searchMap_setCache _ _ _ _ _) rfl
    · rw [splitKey_DEFAULT_REGION, splitKey_REGIONS]
      rfl
    · rw [splitKey_DEFAULT_REGION, splitKey_REGIONS]
      simp only [List.getLastD_cons, List.getLastD_nil]
      rw [lowerKey_literal _ (by decide) (by decide)]
      decide
  · unfold SetLocationsCache
    exact Get_setCache _ _ _ _ _

/-- What `LocationsCache` returns after `SetLocationsCache`, in terms of
the two stored expirations. -/
theorem LocationsCache_SetLocationsCache (m : Option (List (String × String))) (c : String)
    (now1 now2 t1 t2 : Int) (v : Viper)
    (h1 : ¬ (storedExpiration REGIONS_CACHE_TTL_SECONDS now1 ≠ 0 ∧
              storedExpiration REGIONS_CACHE_TTL_SECONDS now1 < t1))
    (h2 : ¬ (storedExpiration REGIONS_CACHE_TTL_SECONDS now2 ≠ 0 ∧
              storedExpiration REGIONS_CACHE_TTL_SECONDS now2 < t2)) :
    LocationsCache t1 t2 (SetLocationsCache m c now1 now2 v) = (m, c) := by
  obtain ⟨g1, g2⟩ := Get_SetLocationsCache m c now1 now2 v
  unfold LocationsCache getCache
  simp only [g1, g2, Decode_box]
  simp [h1, h2]

/-- C8: for every store and clock readings, `LocationsCache` returns
`(nil, "")` as soon as `getCache` fails on `locations` or on
`defaultLocation`, and returns the two decoded values when both reads
give no error; so a failed read never comes with the other key's data. -/
theorem LocationsCache_all_or_nothing (v : Viper) (now1 now2 : Int) :
    (((getCache (Option (List (String × String))) REGIONS_CACHE_KEY now1 v).2 ≠ none ∨
      (getCache String DEFAULT_REGION_CACHE_KEY now2 v).2 ≠ none) →
        LocationsCache now1 now2 v = (none, "")) ∧
    (((getCache (Option (List (String × String))) REGIONS_CACHE_KEY now1 v).2 = none ∧
      (getCache String DEFAULT_REGION_CACHE_KEY now2 v).2 = none) →
        LocationsCache now1 now2 v
          = ((getCache (Option (List (String × String))) REGIONS_CACHE_KEY now1 v).1,
             (getCache String DEFAULT_REGION_CACHE_KEY now2 v).1)) := by
  unfold LocationsCache
  cases hg1 : getCache (Option (List (String × String))) REGIONS_CACHE_KEY now1 v with
  | mk loc err1 =>
    cases hg2 : getCache String DEFAULT_REGION_CACHE_KEY now2 v with
    | mk dflt err2 =>
      cases err1 <;> cases err2 <;> simp

/-- C10: for every mapping, closest region and store, when the two writes
of `SetLocationsCache` read the clock values `t0 <= t0'` and the two reads
of `LocationsCache` read the clock values `t <= t'` with
`t' < t0 + 28800`, the result is the mapping and the closest region that
were set; both entries are stored with their write time plus 28800, the
same time-to-live.  The write times are readings of `time.Now().Unix()`:
`int64` values for which `t0' + 28800` is not above the largest `int64`, as
every clock reading of a running machine is.  With `t0' = t0` and `t' = t`
this is one set time and one read time `t0 <= t < t0 + 28800`. -/
theorem locations_round_trip (m : Option (List (String × String))) (c : String)
    (t0 t0' t t' : Int) (v : Viper) (hw : t0 ≤ t0') (hr : t ≤ t') (hwin : t' < t0 + 28800)
    (hlo : minInt64 ≤ t0) (hhi : t0' + 28800 ≤ maxInt64) :
    LocationsCache t t' (SetLocationsCache m c t0 t0' v) = (m, c) ∧
    (SetLocationsCache m c t0 t0' v).Get (cacheKey REGIONS_CACHE_KEY)
        = (Entry.box { Expiration := t0 + 28800, Data := m } : Value) ∧
    (SetLocationsCache m c t0 t0' v).Get (cacheKey DEFAULT_REGION_CACHE_KEY)
        = (Entry.box { Expiration := t0' + 28800, Data := c } : Value) := by
  have e1 : storedExpiration REGIONS_CACHE_TTL_SECONDS t0 = t0 + 28800 := by
    unfold storedExpiration
    rw [if_pos (by decide)]
    exact wrapInt64_of_inRange _ (by unfold REGIONS_CACHE_TTL_SECONDS; omega)
      (by unfold REGIONS_CACHE_TTL_SECONDS; omega)
  have e2 : storedExpiration REGIONS_CACHE_TTL_SECONDS t0' = t0' + 28800 := by
    unfold storedExpiration
    rw [if_pos (by decide)]
    exact wrapInt64_of_inRange _ (by unfold REGIONS_CACHE_TTL_SECONDS; omega)
      (by unfold REGIONS_CACHE_TTL_SECONDS; omega)
  obtain ⟨g1, g2⟩ := Get_SetLocationsCache m c t0 t0' v
  rw [e1] at g1
  rw [e2] at g2
  refine ⟨?_, g1, g2⟩
  apply LocationsCache_SetLocationsCache
  · rw [e1]; omega
  · rw [e2]; omega

/-- C11: for every key, value, store, `ttl > 0`, set time `t0` and read
time `t > t0 + ttl`, `setCache` at `t0` followed by `getCache` at `t`
returns the stale value itself together with `ErrExpired`.  The clock
readings are `int64` values with `t0 + ttl` different from 0, as every
reading of a clock that shows no time before 1970 (`t0 >= 0`) is. -/
theorem setCache_getCache_expired {T : Type} [GoType T] (k : String) (ttl : Int) (x : T)
    (t0 t : Int) (v : Viper) (httl : 0 < ttl) (hgt : t0 + ttl < t) (hne : t0 + ttl ≠ 0)
    (hlo : minInt64 ≤ t0) (hhi : t ≤ maxInt64) :
    getCache T k t (setCache k ttl x t0 v).1 = (x, some CacheError.ErrExpired) := by
  rw [getCache_setCache]
  have he : storedExpiration ttl t0 = t0 + ttl := by
    unfold storedExpiration
    rw [if_pos httl]
    exact wrapInt64_of_inRange _ (by omega) (by omega)
  rw [he, if_pos ⟨hne, hgt⟩]

/-- C12, amended: when decoding the stored value fails, `getCache`
returns the decode error, which is not `ErrExpired`, together with what
the decode left in `entry.Data`; that is the zero value of `T` whenever
the stored value is no map or struct at all; and `ErrExpired` comes only
with a decode that succeeded. -/
theorem getCache_decode_error {T : Type} [GoType T] (k : String) (now : Int) (v : Viper)
    (hfail : (Decode (v.Get (cacheKey k))
      ({ Expiration := 0, Data := GoType.zero } : Entry T)).2 = true) :
    getCache T k now v
      = ((Decode (v.Get (cacheKey k))
            ({ Expiration := 0, Data := GoType.zero } : Entry T)).1.Data,
         some (CacheError.decodeFailed k)) ∧
    (getCache T k now v).2 ≠ some CacheError.ErrExpired ∧
    ((v.Get (cacheKey k)).isStructSource = false →
      getCache T k now v = (GoType.zero, some (CacheError.decodeFailed k))) ∧
    (∀ (w : Viper) (t : Int), (getCache T k t w).2 = some CacheError.ErrExpired →
      (Decode (w.Get (cacheKey k))
        ({ Expiration := 0, Data := GoType.zero } : Entry T)).2 = false) := by
  have main : getCache T k now v
      = ((Decode (v.Get (cacheKey k))
            ({ Expiration := 0, Data := GoType.zero } : Entry T)).1.Data,
         some (CacheError.decodeFailed k)) := by
    unfold getCache
    simp only [hfail, if_true]
  refine ⟨main, ?_, ?_, ?_⟩
  · rw [main]; simp
  · intro hsrc
    rw [main]
    cases hv : v.Get (cacheKey k) <;> simp_all [Value.isStructSource, Decode]
  · intro w t hexp
    cases hd : (Decode (w.Get (cacheKey k))
        ({ Expiration := 0, Data := GoType.zero } : Entry T)).2 with
    | false => rfl
    | true =>
      unfold getCache at hexp
      simp [hd] at hexp

/-- C13, amended: for every key, time-to-live, value, clock value and
store, `setCache` returns no error and leaves at the namespaced key the
entry with the given data whose expiration is the `int64` sum of `now` and
`ttl` when `ttl > 0` (equal to `now + ttl` whenever that is an `int64`,
congruent to it modulo 2^64 always) and 0 when `ttl <= 0`; an entry written
with `ttl <= 0` is fresh at every clock value. -/
theorem setCache_stores_entry {T : Type} [GoType T] (k : String) (ttl : Int) (x : T)
    (now : Int) (v : Viper) :
    (setCache k ttl x now v).2 = none ∧
    (setCache k ttl x now v).1.Get (cacheKey k)
      = (Entry.box { Expiration := if ttl > 0 then wrapInt64 (now + ttl) else 0,
                     Data := x } : Value) ∧
    (0 < ttl → (wrapInt64 (now + ttl) - (now + ttl)) % 2 ^ 64 = 0) ∧
    (0 < ttl → minInt64 ≤ now + ttl → now + ttl ≤ maxInt64 →
      wrapInt64 (now + ttl) = now + ttl) ∧
    (ttl ≤ 0 → ∀ t : Int, getCache T k t (setCache k ttl x now v).1 = (x, none)) := by
  refine ⟨rfl, ?_, ?_, ?_, ?_⟩
  · have := Get_setCache k ttl x now v
    unfold storedExpiration at this
    exact this
  · intro httl
    have := (storedExpiration_int64 ttl now httl).1
    unfold storedExpiration at this
    rw [if_pos httl] at this
    exact this
  · intro _ hlo hhi
    exact wrapInt64_of_inRange _ hlo hhi
  · intro hle t
    rw [getCache_setCache]
    have : storedExpiration ttl now = 0 := by
      unfold storedExpiration
      rw [if_neg (by omega)]
    simp [this]

/-- C18: for every `ttl > 0` and clock value `now >= 0` with
`now + ttl <= 2^63 - 1`, the expiration `setCache` stores, which is always
an `int64` congruent to `now + ttl` modulo 2^64, equals `now + ttl`
exactly, is greater than `now` and is not 0, and `getCache` right after, at
the same clock value, returns the value with no error. -/
theorem setCache_expiration_no_wrap {T : Type} [GoType T] (k : String) (ttl : Int) (x : T)
    (now : Int) (v : Viper) (httl : 0 < ttl) (hnow : 0 ≤ now) (hsum : now + ttl ≤ 2 ^ 63 - 1) :
    (storedExpiration ttl now - (now + ttl)) % 2 ^ 64 = 0 ∧
    minInt64 ≤ storedExpiration ttl now ∧ storedExpiration ttl now ≤ maxInt64 ∧
    (setCache k ttl x now v).1.Get (cacheKey k)
      = (Entry.box { Expiration := now + ttl, Data := x } : Value) ∧
    storedExpiration ttl now = now + ttl ∧
    now < storedExpiration ttl now ∧
    storedExpiration ttl now ≠ 0 ∧
    getCache T k now (setCache k ttl x now v).1 = (x, none) := by
  have he : storedExpiration ttl now = now + ttl :=
    storedExpiration_inRange ttl now httl (by unfold minInt64; omega) hsum
  have h64 := storedExpiration_int64 ttl now httl
  refine ⟨h64.1, h64.2.1, h64.2.2, ?_, he, ?_, ?_, ?_⟩
  · have := Get_setCache k ttl x now v
    rw [he] at this
    exact this
  · omega
  · omega
  · rw [getCache_setCache, he, if_neg]
    omega

/-- C15: after `setCache` of `x1` and then `setCache` of `x2` under the
same key, `getCache` returns what it returns when only the second call was
made, on any store: the value `x2`, expired or fresh by the expiration the
second call stored; so inside the second entry's own window the read is
fresh, whatever the first call stored, also when the first entry had
expired. -/
theorem setCache_overwrites {T1 T2 : Type} [GoType T1] [GoType T2] (k : String)
    (ttl1 ttl2 : Int) (x1 : T1) (x2 : T2) (t1 t2 t : Int) (v w : Viper) :
    getCache T2 k t (setCache k ttl2 x2 t2 (setCache k ttl1 x1 t1 v).1).1
      = getCache T2 k t (setCache k ttl2 x2 t2 w).1 ∧
    getCache T2 k t (setCache k ttl2 x2 t2 (setCache k ttl1 x1 t1 v).1).1
      = (x2, if storedExpiration ttl2 t2 ≠ 0 ∧ storedExpiration ttl2 t2 < t
             then some CacheError.ErrExpired else none) ∧
    ((getCache T1 k t (setCache k ttl1 x1 t1 v).1).2 = some CacheError.ErrExpired →
      t1 ≤ t2 → 0 < ttl2 → minInt64 ≤ t2 → t2 + ttl2 ≤ maxInt64 → t < t2 + ttl2 →
      getCache T2 k t (setCache k ttl2 x2 t2 (setCache k ttl1 x1 t1 v).1).1 = (x2, none)) := by
  refine ⟨?_, ?_, ?_⟩
  · rw [getCache_setCache, getCache_setCache]
  · rw [getCache_setCache]
  · intro _ _ httl hlo hhi hwin
    exact getCache_setCache_inRange k ttl2 x2 t2 t _ httl hwin hlo hhi

/-- Reading key `key1` after `Set` on a key with the same parent path and
another last segment gives what it gave before, provided `key1` was not
shadowed in the overrides. -/
theorem Get_Set_frame (v : Viper) (key1 key2 : String) (x : Value)
    (hp : (splitKey (lowerKey key2)).dropLast = (splitKey (lowerKey key1)).dropLast)
    (hl : lowerKey ((splitKey (lowerKey key2)).getLastD "") ≠ (splitKey (lowerKey key1)).getLastD "")
    (hs : isPathShadowedInDeepMap (splitKey (lowerKey key1)) v.override = "") :
    (v.Set key2 x).Get key1 = v.Get key1 := by
  have hne := splitKey_ne_nil (lowerKey key1)
  have h1 := dropLast_append_getLastD _ hne
  have hsearch : searchMap (v.Set key2 x).override (splitKey (lowerKey key1))
      = searchMap v.override (splitKey (lowerKey key1)) := by
    conv_lhs => rw [← h1]
    conv_rhs => rw [← h1]
    simp only [Viper.Set, hp]
    exact searchMap_setDeep_sibling _ _ _ _ _ hl
  have hshadow : isPathShadowedInDeepMap (splitKey (lowerKey key1)) (v.Set key2 x).override
      = "" := by
    simp only [Viper.Set, hp]
    exact isPathShadowed_setDeep _ _ _ _ hne
  have hcfg : (v.Set key2 x).config = v.config := rfl
  simp only [Viper.Get, Viper.find, hsearch, hshadow, hs, hcfg]

theorem getCache_congr_Get {T : Type} [GoType T] (k : String) (now : Int) (v w : Viper)
    (h : w.Get (cacheKey k) = v.Get (cacheKey k)) :
    getCache T k now w = getCache T k now v := by
  unfold getCache
  rw [h]

/-- After `setCache` under a key without `.` the overrides hold a map at
the key `cache`. -/
theorem cacheShadowed_setCache {T : Type} [GoType T] (k : String) (ttl : Int) (x : T)
    (now : Int) (v : Viper) (hk : '.' ∉ k.data) :
    cacheShadowed (setCache k ttl x now v).1 = false := by
  rw [setCache_fst]
  unfold cacheShadowed
  simp only [Viper.Set, splitKey_cacheKey k hk]
  obtain ⟨m2, hm2⟩ := searchMap_setDeep_take ["cache"] v.override
    (lowerKey (["cache", lowerKey k].getLastD ""))
    (toCaseInsensitiveValue
      (Entry.box { Expiration := storedExpiration ttl now, Data := x })) 1
  have hdl : ["cache", lowerKey k].dropLast = ["cache"] := rfl
  rw [hdl]
  simp only [List.take] at hm2
  rw [hm2]

/-- Writing under a logical key leaves what `getCache` returns for another
logical key as it was, when neither key has a `.`, the two differ in lower
case and no regular value sits at `cache` in the overrides. -/
theorem getCache_setCache_other {T U : Type} [GoType T] [GoType U] (k k2 : String) (ttl : Int)
    (x : U) (now t : Int) (v : Viper) (hk : '.' ∉ k.data) (hk2 : '.' ∉ k2.data)
    (hne : lowerKey k ≠ lowerKey k2) (hc : cacheShadowed v = false) :
    getCache T k t (setCache k2 ttl x now v).1 = getCache T k t v := by
  apply getCache_congr_Get
  rw [setCache_fst]
  apply Get_Set_frame
  · rw [splitKey_cacheKey k hk, splitKey_cacheKey k2 hk2]
    rfl
  · rw [splitKey_cacheKey k hk, splitKey_cacheKey k2 hk2]
    simp only [List.getLastD_cons, List.getLastD_nil, lowerKey_lowerKey]
    exact fun h => hne h.symm
  · rw [splitKey_cacheKey k hk]
    exact isPathShadowed_cache _ _ hc

/-- C17, amended: `cacheKey` is injective; for logical keys `k`, `k2`
without `.` whose lower-case forms under `strings.ToLower` differ, on every
store whose overrides hold no regular value at `cache`, `setCache` under
`k2` does not change what `getCache` returns for `k`; and on such a store
`SetDbNamesCache` does not change what `LocationsCache` returns and
`SetLocationsCache` does not change what `GetDbNamesCache` returns. -/
theorem setCache_other_key {T U : Type} [GoType T] [GoType U] (k k2 : String) (ttl : Int)
    (x : U) (now t t1 t2 n1 n2 : Int) (v : Viper) (names : Option (List String))
    (m : Option (List (String × String))) (c : String)
    (hk : '.' ∉ k.data) (hk2 : '.' ∉ k2.data) (hne : lowerKey k ≠ lowerKey k2)
    (hc : cacheShadowed v = false) :
    (∀ a b : String, cacheKey a = cacheKey b → a = b) ∧
    getCache T k t (setCache k2 ttl x now v).1 = getCache T k t v ∧
    LocationsCache t1 t2 (SetDbNamesCache names now v) = LocationsCache t1 t2 v ∧
    GetDbNamesCache t (SetLocationsCache m c n1 n2 v) = GetDbNamesCache t v := by
  refine ⟨cacheKey_injective, getCache_setCache_other k k2 ttl x now t v hk hk2 hne hc, ?_, ?_⟩
  · unfold LocationsCache SetDbNamesCache
    rw [getCache_setCache_other REGIONS_CACHE_KEY DB_NAMES_CACHE_KEY _ _ _ _ _
          (by decide) (by decide) (by rw [lowerKey_REGIONS, lowerKey_DB_NAMES]; decide) hc,
        getCache_setCache_other DEFAULT_REGION_CACHE_KEY DB_NAMES_CACHE_KEY _ _ _ _ _
          (by decide) (by decide)
          (by rw [lowerKey_DEFAULT_REGION, lowerKey_DB_NAMES]; decide) hc]
  · unfold GetDbNamesCache SetLocationsCache
    simp only []
    rw [getCache_setCache_other DB_NAMES_CACHE_KEY DEFAULT_REGION_CACHE_KEY _ _ _ _ _
          (by decide) (by decide)
          (by rw [lowerKey_DEFAULT_REGION, lowerKey_DB_NAMES]; decide)
          (cacheShadowed_setCache REGIONS_CACHE_KEY _ _ _ _ (by decide)),
        getCache_setCache_other DB_NAMES_CACHE_KEY REGIONS_CACHE_KEY _ _ _ _ _
          (by decide) (by decide) (by rw [lowerKey_REGIONS, lowerKey_DB_NAMES]; decide) hc]

/-! ## The rewrite of the settings by `invalidateCache` -/

mutual
theorem leavesValue_ne_nil (p : List String) :
    ∀ x : Value, wellFormedValue x = true → leavesValue p x ≠ []
  | .obj m, h => by
    simp only [wellFormedValue, Bool.and_eq_true, Bool.not_eq_true', List.isEmpty_eq_false] at h
    simp only [leavesValue]
    exact leavesFields_ne_nil p m h.2 (by
      intro hm
      have := h.1
      simp [hm] at this)
  | .null, h => by simp [wellFormedValue] at h
  | .bool _, _ => by simp [leavesValue]
  | .num _, _ => by simp [leavesValue]
  | .str _, _ => by simp [leavesValue]
  | .arr _, _ => by simp [leavesValue]
  | .strs _, h => by simp [wellFormedValue] at h
  | .strMap _, h => by simp [wellFormedValue] at h
  | .entry _ _ _, h => by simp [wellFormedValue] at h
theorem leavesFields_ne_nil (p : List String) :
    ∀ m : List (String × Value), wellFormedFields m = true → m ≠ [] → leavesFields p m ≠ []
  | [], _, hm => absurd rfl hm
  | (k, x) :: rest, h, _ => by
    simp only [wellFormedFields, Bool.and_eq_true] at h
    simp only [leavesFields]
    intro hnil
    exact leavesValue_ne_nil (p ++ [k]) x h.1.2 (List.append_eq_nil.mp hnil).1
end

mutual
theorem putAll_leavesValue :
    ∀ x : Value, wellFormedValue x = true → ∀ (acc : Document) (k : String),
      mapGet acc k = none → putAll acc (leavesValue [k] x) = acc ++ [(k, x)]
  | .obj m, h, acc, k, hk => by
    simp only [wellFormedValue, Bool.and_eq_true, Bool.not_eq_true', List.isEmpty_eq_false] at h
    have hm : m ≠ [] := by
      intro hm
      have := h.1
      simp [hm] at this
    have hs := leavesFields_shift [k] [] m
    simp only [List.append_nil] at hs
    simp only [leavesValue]
    rw [hs]
    have hcons : (fun pv : List String × Value => ([k] ++ pv.1, pv.2))
        = (fun pv => (k :: pv.1, pv.2)) := rfl
    rw [hcons, putAll_under_key k _ (leavesFields_nil_paths m) (leavesFields_ne_nil [] m h.2 hm),
      subAt_of_not_mem acc k hk, putAll_leavesFields m h.2 [] (by intro kv _; rfl),
      mapSet_of_not_mem acc k _ hk]
    rfl
  | .null, h, _, _, _ => by simp [wellFormedValue] at h
  | .bool _, _, acc, k, hk => by
    simp [leavesValue, putAll, putAt_single, mapSet_of_not_mem acc k _ hk]
  | .num _, _, acc, k, hk => by
    simp [leavesValue, putAll, putAt_single, mapSet_of_not_mem acc k _ hk]
  | .str _, _, acc, k, hk => by
    simp [leavesValue, putAll, putAt_single, mapSet_of_not_mem acc k _ hk]
  | .arr _, _, acc, k, hk => by
    simp [leavesValue, putAll, putAt_single, mapSet_of_not_mem acc k _ hk]
  | .strs _, h, _, _, _ => by simp [wellFormedValue] at h
  | .strMap _, h, _, _, _ => by simp [wellFormedValue] at h
  | .entry _ _ _, h, _, _, _ => by simp [wellFormedValue] at h
theorem putAll_leavesFields :
    ∀ m : List (String × Value), wellFormedFields m = true → ∀ acc : Document,
      (∀ kv ∈ m, mapGet acc kv.1 = none) → putAll acc (leavesFields [] m) = acc ++ m
  | [], _, acc, _ => by simp [leavesFields, putAll]
  | (k, x) :: rest, h, acc, hacc => by
    simp only [wellFormedFields, Bool.and_eq_true, Bool.not_eq_true'] at h
    obtain ⟨⟨⟨_, hnd⟩, hx⟩, hrest⟩ := h
    simp only [leavesFields, List.nil_append]
    rw [putAll_append, putAll_leavesValue x hx acc k (hacc (k, x) (by simp)),
      putAll_leavesFields rest hrest (acc ++ [(k, x)]) (by
        intro kv hkv
        rw [mapGet_append, hacc kv (by simp [hkv])]
        have hne : k ≠ kv.1 := by
          intro he
          have := List.any_eq_false.mp hnd kv hkv
          simp [he] at this
        simp [mapGet, hne])]
    simp
end

theorem lowerKey_append (a b : String) : lowerKey (a ++ b) = lowerKey a ++ lowerKey b := by
  apply String.ext
  simp [lowerKey, String.data_append]

theorem lowerKey_dot : lowerKey "." = "." :=
  lowerKey_literal "." (by decide) (by decide)

theorem goodKey_iff (k : String) :
    goodKey k = true ↔ k ≠ "" ∧ '.' ∉ k.data ∧ lowerKey k = k := by
  simp [goodKey, and_assoc]

theorem flattenLeaf_adds (S : List String) (f : String) (x : Value)
    (hx : flattenValue S f x
      = if S.contains (lowerKey f) then S else S ++ [lowerKey f]) :
    ∃ J, flattenValue S f x = S ++ J ∧
      ∀ s ∈ J, lowerKey s = s ∧ splitKey (lowerKey f) <+: splitKey s := by
  by_cases hc : lowerKey f ∈ S
  · exact ⟨[], by simp [hx, hc], by simp⟩
  · refine ⟨[lowerKey f], by simp [hx, hc], ?_⟩
    intro s hs
    simp only [List.mem_singleton] at hs
    subst hs
    exact ⟨lowerKey_lowerKey f, List.prefix_refl _⟩

mutual
/-- What flattening a value under `f` adds to the keys found so far lies at
or under `f` and is in lower case. -/
theorem flattenValue_adds : ∀ (x : Value) (S : List String) (f : String), f ≠ "" →
    ∃ J, flattenValue S f x = S ++ J ∧
      ∀ s ∈ J, lowerKey s = s ∧ splitKey (lowerKey f) <+: splitKey s
  | .obj m, S, f, hf => by
    by_cases hc : f ∈ S
    · exact ⟨[], by simp [flattenValue, hf, hc], by simp⟩
    · obtain ⟨J, hJ, hP⟩ := flattenFields_adds m S f hf
      exact ⟨J, by simp [flattenValue, hf, hc, hJ], hP⟩
  | .null, S, f, _ => flattenLeaf_adds S f _ rfl
  | .bool _, S, f, _ => flattenLeaf_adds S f _ rfl
  | .num _, S, f, _ => flattenLeaf_adds S f _ rfl
  | .str _, S, f, _ => flattenLeaf_adds S f _ rfl
  | .arr _, S, f, _ => flattenLeaf_adds S f _ rfl
  | .strs _, S, f, _ => flattenLeaf_adds S f _ rfl
  | .strMap _, S, f, _ => flattenLeaf_adds S f _ rfl
  | .entry _ _ _, S, f, _ => flattenLeaf_adds S f _ rfl
/-- What flattening the members of the map under `f` adds lies under `f`. -/
theorem flattenFields_adds : ∀ (m : List (String × Value)) (S : List String) (f : String),
    f ≠ "" →
    ∃ J, flattenLoop S (f ++ ".") m = S ++ J ∧
      ∀ s ∈ J, lowerKey s = s ∧ splitKey (lowerKey f) <+: splitKey s
  | [], S, f, _ => ⟨[], by simp [flattenLoop], by simp⟩
  | (k, x) :: rest, S, f, hf => by
    have hne : f ++ "." ++ k ≠ "" := by
      intro h
      have := congrArg String.data h
      simp [String.data_append] at this
    obtain ⟨J1, h1, hP1⟩ := flattenValue_adds x S (f ++ "." ++ k) hne
    obtain ⟨J2, h2, hP2⟩ := flattenFields_adds rest (S ++ J1) f hf
    refine ⟨J1 ++ J2, by simp [flattenLoop, h1, h2], ?_⟩
    intro s hs
    rcases List.mem_append.mp hs with hs | hs
    · refine ⟨(hP1 s hs).1, ?_⟩
      have := (hP1 s hs).2
      rw [lowerKey_append, lowerKey_append, lowerKey_dot, splitKey_append_dot] at this
      exact (List.prefix_append _ _).trans this
    · exact hP2 s hs
end

theorem wellFormedFields_cons (k : String) (x : Value) (rest : List (String × Value)) :
    wellFormedFields ((k, x) :: rest) = true ↔
      goodKey k = true ∧ (∀ kv ∈ rest, kv.1 ≠ k) ∧ wellFormedValue x = true ∧
        wellFormedFields rest = true := by
  simp only [wellFormedFields, Bool.and_eq_true, Bool.not_eq_true', List.any_eq_false,
    beq_iff_eq, and_assoc]

theorem wellFormedFields_mem : ∀ (m : List (String × Value)), wellFormedFields m = true →
    ∀ kv ∈ m, goodKey kv.1 = true ∧ wellFormedValue kv.2 = true
  | [], _, kv, h => by simp at h
  | (k, x) :: rest, hw, kv, h => by
    rw [wellFormedFields_cons] at hw
    simp only [List.mem_cons] at h
    rcases h with h | h
    · subst h; exact ⟨hw.1, hw.2.2.1⟩
    · exact wellFormedFields_mem rest hw.2.2.2 kv h

mutual
/-- Flattening a well-formed value under a key that nothing found so far
lies at or under adds its leaf keys, in order. -/
theorem flattenValue_wellFormed : ∀ (x : Value), wellFormedValue x = true →
    ∀ (S : List String) (f : String), lowerKey f = f → f ≠ "" →
      (∀ s ∈ S, ¬ splitKey f <+: splitKey s) →
      flattenValue S f x = S ++ leafKeysValue f x
  | .obj m, h, S, f, hl, hf, hS => by
    simp only [wellFormedValue, Bool.and_eq_true] at h
    have hc : f ∉ S := fun hm => hS f hm (List.prefix_refl _)
    have := flattenFields_wellFormed m h.2 S f hl hf (by
      intro s hs kv _ hp
      apply hS s hs
      rw [splitKey_append_dot] at hp
      exact (List.prefix_append _ _).trans hp)
    simp [flattenValue, hf, hc, this, leafKeysValue]
  | .null, h, _, _, _, _, _ => by simp [wellFormedValue] at h
  | .bool _, _, S, f, hl, _, hS => by
    have hc : f ∉ S := fun hm => hS f hm (List.prefix_refl _)
    simp [flattenValue, hl, hc, leafKeysValue]
  | .num _, _, S, f, hl, _, hS => by
    have hc : f ∉ S := fun hm => hS f hm (List.prefix_refl _)
    simp [flattenValue, hl, hc, leafKeysValue]
  | .str _, _, S, f, hl, _, hS => by
    have hc : f ∉ S := fun hm => hS f hm (List.prefix_refl _)
    simp [flattenValue, hl, hc, leafKeysValue]
  | .arr _, _, S, f, hl, _, hS => by
    have hc : f ∉ S := fun hm => hS f hm (List.prefix_refl _)
    simp [flattenValue, hl, hc, leafKeysValue]
  | .strs _, h, _, _, _, _, _ => by simp [wellFormedValue] at h
  | .strMap _, h, _, _, _, _, _ => by simp [wellFormedValue] at h
  | .entry _ _ _, h, _, _, _, _, _ => by simp [wellFormedValue] at h
/-- Flattening the members of a well-formed map under `f`. -/
theorem flattenFields_wellFormed : ∀ (m : List (String × Value)), wellFormedFields m = true →
    ∀ (S : List String) (f : String), lowerKey f = f → f ≠ "" →
      (∀ s ∈ S, ∀ kv ∈ m, ¬ splitKey (f ++ "." ++ kv.1) <+: splitKey s) →
      flattenLoop S (f ++ ".") m = S ++ leafKeysFields (f ++ ".") m
  | [], _, S, f, _, _, _ => by simp [flattenLoop, leafKeysFields]
  | (k, x) :: rest, h, S, f, hl, hf, hS => by
    rw [wellFormedFields_cons] at h
    obtain ⟨hk, hnd, hx, hrest⟩ := h
    obtain ⟨hk1, hk2, hk3⟩ := (goodKey_iff k).mp hk
    have hfl : lowerKey (f ++ "." ++ k) = f ++ "." ++ k := by
      rw [lowerKey_append, lowerKey_append, lowerKey_dot, hl, hk3]
    have hfne : f ++ "." ++ k ≠ "" := append_ne_empty _ _ hk1
    have h1 := flattenValue_wellFormed x hx S (f ++ "." ++ k) hfl hfne
      (fun s hs => hS s hs (k, x) (by simp))
    have h2 := flattenFields_wellFormed rest hrest (S ++ leafKeysValue (f ++ "." ++ k) x) f hl hf (by
      intro s hs kv hkv hp
      rcases List.mem_append.mp hs with hs | hs
      · exact hS s hs kv (by simp [hkv]) hp
      · have hp1 := leafKeysValue_prefix x (f ++ "." ++ k) s hs
        have hkv2 : '.' ∉ kv.1.data :=
          ((goodKey_iff kv.1).mp (wellFormedFields_mem rest hrest kv hkv).1).2.1
        rw [splitKey_append_dot, splitKey_dotless _ hk2] at hp1
        rw [splitKey_append_dot, splitKey_dotless _ hkv2] at hp
        have := prefix_same_length _ _ _ hp1 hp (by simp)
        exact hnd kv hkv (by simpa using this.symm))
    simp [flattenLoop, leafKeysFields, h1, h2]
end

theorem flattenLoop_append (S : List String) (pfx : String) (a b : List (String × Value)) :
    flattenLoop S pfx (a ++ b) = flattenLoop (flattenLoop S pfx a) pfx b := by
  induction a generalizing S with
  | nil => simp [flattenLoop]
  | cons kv rest ih =>
    obtain ⟨k, x⟩ := kv
    simp [flattenLoop, ih]

/-- What flattening the members of a map with good keys adds lies at or under
one of the members. -/
theorem flattenLoop_adds (m : List (String × Value)) (S : List String) (pfx : String)
    (P : List String) (hsp : ∀ k : String, '.' ∉ k.data → splitKey (pfx ++ k) = P ++ [k])
    (hlo : lowerKey pfx = pfx) (hm : ∀ kv ∈ m, goodKey kv.1 = true) :
    ∃ J, flattenLoop S pfx m = S ++ J ∧
      ∀ s ∈ J, lowerKey s = s ∧ ∃ kv ∈ m, (P ++ [kv.1]) <+: splitKey s := by
  induction m generalizing S with
  | nil => exact ⟨[], by simp [flattenLoop], by simp⟩
  | cons kv rest ih =>
    obtain ⟨k, x⟩ := kv
    obtain ⟨hk1, hk2, hk3⟩ := (goodKey_iff k).mp (hm (k, x) (by simp))
    obtain ⟨J1, h1, hP1⟩ := flattenValue_adds x S (pfx ++ k) (append_ne_empty _ _ hk1)
    obtain ⟨J2, h2, hP2⟩ := ih (S ++ J1) (fun kv h => hm kv (by simp [h]))
    refine ⟨J1 ++ J2, by simp [flattenLoop, h1, h2], ?_⟩
    intro s hs
    rcases List.mem_append.mp hs with hs | hs
    · refine ⟨(hP1 s hs).1, (k, x), by simp, ?_⟩
      have := (hP1 s hs).2
      rw [lowerKey_append, hlo, hk3, hsp k hk2] at this
      exact this
    · obtain ⟨hl, kv, hkv, hp⟩ := hP2 s hs
      exact ⟨hl, kv, by simp [hkv], hp⟩

theorem distinctGoodKeys_cons (k : String) (x : Value) (rest : List (String × Value)) :
    distinctGoodKeys ((k, x) :: rest) = true ↔
      goodKey k = true ∧ (∀ kv ∈ rest, kv.1 ≠ k) ∧ distinctGoodKeys rest = true := by
  simp only [distinctGoodKeys, Bool.and_eq_true, Bool.not_eq_true', List.any_eq_false,
    beq_iff_eq, and_assoc]

theorem distinctGoodKeys_mem : ∀ (m : List (String × Value)), distinctGoodKeys m = true →
    ∀ kv ∈ m, goodKey kv.1 = true
  | [], _, kv, h => by simp at h
  | (k, x) :: rest, hw, kv, h => by
    rw [distinctGoodKeys_cons] at hw
    simp only [List.mem_cons] at h
    rcases h with h | h
    · subst h; exact hw.1
    · exact distinctGoodKeys_mem rest hw.2.2 kv h

theorem distinctGoodKeys_split (before after : List (String × Value)) (k : String) (x : Value)
    (h : distinctGoodKeys (before ++ (k, x) :: after) = true) :
    goodKey k = true ∧ (∀ kv ∈ after, kv.1 ≠ k) := by
  induction before with
  | nil =>
    rw [List.nil_append, distinctGoodKeys_cons] at h
    exact ⟨h.1, h.2.1⟩
  | cons kv rest ih =>
    obtain ⟨k2, y⟩ := kv
    rw [List.cons_append, distinctGoodKeys_cons] at h
    exact ih h.2.2

theorem cleanKeys_of_distinctGoodKeys : ∀ (m : List (String × Value)),
    distinctGoodKeys m = true → cleanKeys m
  | [], _ => ⟨by simp, by simp⟩
  | (k, x) :: rest, h => by
    rw [distinctGoodKeys_cons] at h
    obtain ⟨hk, hnd, hrest⟩ := h
    obtain ⟨_, hk2, hk3⟩ := (goodKey_iff k).mp hk
    have ih := cleanKeys_of_distinctGoodKeys rest hrest
    refine ⟨?_, ?_⟩
    · intro kv hkv
      simp only [List.mem_cons] at hkv
      rcases hkv with hkv | hkv
      · subst hkv; exact ⟨hk2, hk3⟩
      · exact ih.1 kv hkv
    · simp only [List.map_cons, List.nodup_cons]
      refine ⟨?_, ih.2⟩
      intro hmem
      obtain ⟨kv, hkv, he⟩ := List.mem_map.mp hmem
      exact hnd kv hkv he

/-- What being well formed at a path says about the first step of the
path. -/
theorem wellFormedAt_cons (m : Document) (k : String) (r : List String)
    (h : wellFormedAt m (k :: r) = true) :
    distinctGoodKeys m = true ∧ ∃ next, mapGet m k = some next ∧
      ((r = [] ∧ wellFormedValue next = true) ∨
        (r ≠ [] ∧ ∃ m2, next = .obj m2 ∧ wellFormedAt m2 r = true)) := by
  cases r with
  | nil =>
    simp only [wellFormedAt, Bool.and_eq_true] at h
    refine ⟨h.1, ?_⟩
    cases hg : mapGet m k with
    | none => rw [hg] at h; simp at h
    | some next =>
      rw [hg] at h
      exact ⟨next, rfl, Or.inl ⟨rfl, h.2⟩⟩
  | cons k2 rest =>
    simp only [wellFormedAt, Bool.and_eq_true] at h
    refine ⟨h.1, ?_⟩
    cases hg : mapGet m k with
    | none => rw [hg] at h; simp at h
    | some next =>
      rw [hg] at h
      cases next with
      | obj m2 => exact ⟨.obj m2, rfl, Or.inr ⟨by simp, m2, rfl, h.2⟩⟩
      | _ => simp at h

/-- A settings file that is well formed at a path holds a well-formed
value there. -/
theorem wellFormedAt_search : ∀ (q : List String) (m : Document),
    wellFormedAt m q = true → wellFormedValue (searchMap m q) = true
  | [], _, h => by simp [wellFormedAt] at h
  | k :: r, m, h => by
    obtain ⟨_, next, hg, hcase⟩ := wellFormedAt_cons m k r h
    rcases hcase with ⟨hr, hw⟩ | ⟨hr, m2, hm2, hw⟩
    · subst hr
      simp only [searchMap, hg]
      exact hw
    · subst hm2
      obtain ⟨b, t, rfl⟩ : ∃ b t, r = b :: t := by
        cases r with
        | nil => exact absurd rfl hr
        | cons b t => exact ⟨b, t, rfl⟩
      simp only [searchMap, hg]
      exact wellFormedAt_search (b :: t) m2 hw

theorem isNull_of_wellFormedValue (x : Value) (h : wellFormedValue x = true) :
    x.isNull = false := by
  cases x <;> simp [wellFormedValue, Value.isNull] at h ⊢

/-- The place of a path in the list of keys: flattening a well-formed map
lists the leaf keys of the value found at the path `q`, at which the map is
well formed, in one run, and
every other key it adds is on a path that parts ways with `q`. -/
theorem flattenLoop_through : ∀ (q : List String), q ≠ [] →
    ∀ (m : List (String × Value)) (S : List String) (pfx : String) (P : List String) (x : Value),
      wellFormedAt m q = true →
      (∀ k : String, '.' ∉ k.data → splitKey (pfx ++ k) = P ++ [k]) →
      lowerKey pfx = pfx →
      searchMap m q = x → x.isNull = false →
      (∀ s ∈ S, ¬ splitKey s <+: (P ++ q) ∧ ¬ (P ++ q) <+: splitKey s) →
      ∃ J1 J2 fq, flattenLoop S pfx m = S ++ J1 ++ leafKeysValue fq x ++ J2 ∧
        splitKey fq = P ++ q ∧ lowerKey fq = fq ∧ wellFormedValue x = true ∧
        (∀ s ∈ J1 ++ J2, lowerKey s = s ∧
          ¬ splitKey s <+: (P ++ q) ∧ ¬ (P ++ q) <+: splitKey s)
  | [], hq, _, _, _, _, _, _, _, _, _, _, _ => absurd rfl hq
  | k0 :: r, _, m, S, pfx, P, x, hw, hsp, hlo, hx, hxn, hS => by
    obtain ⟨next, hg, hcase⟩ := searchMap_cons_some m k0 r x hx hxn
    obtain ⟨hdk, next2, hg2, hwcase⟩ := wellFormedAt_cons m k0 r hw
    have hnn : next2 = next := by
      rw [hg] at hg2
      exact (Option.some.inj hg2).symm
    subst hnn
    obtain ⟨before, after, hm, hb⟩ := mapGet_split m k0 next2 hg
    subst hm
    obtain ⟨hk, ha⟩ := distinctGoodKeys_split before after k0 next2 hdk
    obtain ⟨hk1, hk2, hk3⟩ := (goodKey_iff k0).mp hk
    have hgood : ∀ kv ∈ before ++ (k0, next2) :: after, goodKey kv.1 = true :=
      fun kv h => distinctGoodKeys_mem _ hdk kv h
    have hf : splitKey (pfx ++ k0) = P ++ [k0] := hsp k0 hk2
    have hfl : lowerKey (pfx ++ k0) = pfx ++ k0 := by rw [lowerKey_append, hlo, hk3]
    have hfne : pfx ++ k0 ≠ "" := append_ne_empty _ _ hk1
    obtain ⟨Jb, hJb, hPb⟩ := flattenLoop_adds before S pfx P hsp hlo
      (fun kv h => hgood kv (by simp [h]))
    have hJbU : ∀ s ∈ Jb, lowerKey s = s ∧
        ¬ splitKey s <+: (P ++ k0 :: r) ∧ ¬ (P ++ k0 :: r) <+: splitKey s := by
      intro s hs
      obtain ⟨hl, kv, hkv, hp⟩ := hPb s hs
      exact ⟨hl, diverge_of_sibling P (splitKey s) r kv.1 k0 (hb kv hkv) hp⟩
    have hS1 : ∀ s ∈ S ++ Jb,
        ¬ splitKey s <+: (P ++ k0 :: r) ∧ ¬ (P ++ k0 :: r) <+: splitKey s := by
      intro s hs
      rcases List.mem_append.mp hs with hs | hs
      · exact hS s hs
      · exact (hJbU s hs).2
    have hafter : ∀ S2 : List String, ∃ Ja, flattenLoop S2 pfx after = S2 ++ Ja ∧
        ∀ s ∈ Ja, lowerKey s = s ∧
          ¬ splitKey s <+: (P ++ k0 :: r) ∧ ¬ (P ++ k0 :: r) <+: splitKey s := by
      intro S2
      obtain ⟨Ja, hJa, hPa⟩ := flattenLoop_adds after S2 pfx P hsp hlo
        (fun kv h => hgood kv (by simp [h]))
      refine ⟨Ja, hJa, ?_⟩
      intro s hs
      obtain ⟨hl, kv, hkv, hp⟩ := hPa s hs
      exact ⟨hl, diverge_of_sibling P (splitKey s) r kv.1 k0 (ha kv hkv) hp⟩
    have hpre : (P ++ [k0]) <+: (P ++ k0 :: r) := by
      have : P ++ k0 :: r = (P ++ [k0]) ++ r := by simp
      rw [this]
      exact List.prefix_append _ _
    rcases hcase with ⟨hr, hxe⟩ | ⟨hr, m2, hm2, hx2⟩
    · subst hr
      subst hxe
      have hnext : wellFormedValue x = true := by
        rcases hwcase with ⟨_, h1⟩ | ⟨h1, _⟩
        · exact h1
        · exact absurd rfl h1
      have hmid := flattenValue_wellFormed x hnext (S ++ Jb) (pfx ++ k0) hfl hfne (by
        intro s hs hp
        rw [hf] at hp
        exact (hS1 s hs).2 hp)
      obtain ⟨Ja, hJa, hPa⟩ := hafter ((S ++ Jb) ++ leafKeysValue (pfx ++ k0) x)
      refine ⟨Jb, Ja, pfx ++ k0, ?_, hf, hfl, hnext, ?_⟩
      · have e := flattenLoop_append S pfx before ((k0, x) :: after)
        rw [e, hJb]
        simp only [flattenLoop]
        rw [hmid, hJa]
      · intro s hs
        rcases List.mem_append.mp hs with hs | hs
        · exact hJbU s hs
        · exact hPa s hs
    · subst hm2
      have hw2 : wellFormedAt m2 r = true := by
        rcases hwcase with ⟨h1, _⟩ | ⟨_, m3, h3, h4⟩
        · exact absurd h1 hr
        · have : m3 = m2 := by
            have := Value.obj.inj h3
            exact this.symm
          rw [this] at h4
          exact h4
      have hnotin : pfx ++ k0 ∉ S ++ Jb := by
        intro hmem
        have := (hS1 _ hmem).1
        rw [hf] at this
        exact this hpre
      have hassoc : P ++ [k0] ++ r = P ++ k0 :: r := by simp
      obtain ⟨J1, J2, fq, hfl2, hfq, hfql, hxw, hJ⟩ :=
        flattenLoop_through r hr m2 (S ++ Jb) (pfx ++ k0 ++ ".") (P ++ [k0]) x hw2
          (by
            intro k hkd
            rw [splitKey_append_dot, hf, splitKey_dotless k hkd])
          (by rw [lowerKey_append, hfl, lowerKey_dot])
          hx2 hxn (by rw [hassoc]; exact hS1)
      obtain ⟨Ja, hJa, hPa⟩ := hafter ((S ++ Jb) ++ J1 ++ leafKeysValue fq x ++ J2)
      refine ⟨Jb ++ J1, J2 ++ Ja, fq, ?_, by rw [hfq, hassoc], hfql, hxw, ?_⟩
      · have e := flattenLoop_append S pfx before ((k0, .obj m2) :: after)
        rw [e, hJb]
        simp only [flattenLoop]
        have hmid : flattenValue (S ++ Jb) (pfx ++ k0) (.obj m2)
            = flattenLoop (S ++ Jb) (pfx ++ k0 ++ ".") m2 := by
          simp only [flattenValue]
          simp [hfne, hnotin]
        rw [hmid, hfl2, hJa]
        simp
      · intro s hs
        rw [hassoc] at hJ
        simp only [List.mem_append] at hs hJ
        rcases hs with (hs | hs) | (hs | hs)
        · exact hJbU s hs
        · exact hJ s (Or.inl hs)
        · exact hJ s (Or.inr hs)
        · exact hPa s hs

theorem cleanAlong_nil (q : List String) : cleanAlong [] q := by
  cases q with
  | nil => trivial
  | cons k rest => exact ⟨⟨by simp, by simp⟩, by simp [mapGet]⟩

theorem cleanKeys_mapSet (m : Document) (k : String) (x : Value) (h : cleanKeys m)
    (hk : '.' ∉ k.data ∧ lowerKey k = k) : cleanKeys (mapSet m k x) := by
  refine ⟨?_, mapSet_keys_nodup m k x h.2⟩
  intro kv hkv
  rcases mem_mapSet m k x kv hkv with h1 | h1
  · rw [h1]; exact hk
  · exact h.1 kv h1

theorem cleanAlong_sub (m : Document) (k : String) (rest : List String)
    (h : cleanAlong m (k :: rest)) : cleanAlong (subAt m [k]) rest := by
  have h2 := h.2
  unfold subAt
  simp only [searchMap]
  cases hg : mapGet m k with
  | none => exact cleanAlong_nil rest
  | some next =>
    rw [hg] at h2
    cases next with
    | obj m2 => exact h2
    | _ => exact cleanAlong_nil rest

/-- Assigning at a path that is not strictly above `q` keeps the maps along
`q` clean. -/
theorem cleanAlong_putAt : ∀ (p : List String), p ≠ [] → ∀ (M : Document) (q : List String)
    (y : Value), cleanAlong M q → (∀ seg ∈ p, '.' ∉ seg.data ∧ lowerKey seg = seg) →
    (p <+: q → p = q) → cleanAlong (putAt M p y) q
  | [], hp, _, _, _, _, _, _ => absurd rfl hp
  | _ :: _, _, _, [], _, _, _, _ => trivial
  | [a], _, M, k :: rest, y, hc, hseg, hpre => by
    rw [putAt_single]
    refine ⟨cleanKeys_mapSet M a y hc.1 (hseg a (by simp)), ?_⟩
    by_cases hak : a = k
    · subst hak
      have : rest = [] := by
        have := hpre (by
          have : a :: rest = [a] ++ rest := rfl
          rw [this]
          exact List.prefix_append _ _)
        simpa using this.symm
      subst this
      rw [mapGet_mapSet_same]
      cases y <;> trivial
    · rw [mapGet_mapSet_other _ _ _ _ hak]
      exact hc.2
  | a :: b :: t, _, M, k :: rest, y, hc, hseg, hpre => by
    rw [putAt_cons]
    refine ⟨cleanKeys_mapSet M a _ hc.1 (hseg a (by simp)), ?_⟩
    by_cases hak : a = k
    · subst hak
      rw [mapGet_mapSet_same]
      exact cleanAlong_putAt (b :: t) (by simp) (subAt M [a]) rest y (cleanAlong_sub M a rest hc)
        (fun seg hs => hseg seg (by simp [hs]))
        (by
          intro hp
          have := hpre ((List.cons_prefix_cons).mpr ⟨rfl, hp⟩)
          simpa using this)
    · rw [mapGet_mapSet_other _ _ _ _ hak]
      exact hc.2

theorem cleanAlong_putAll (L : List (List String × Value)) (M : Document) (q : List String)
    (hc : cleanAlong M q)
    (hL : ∀ pv ∈ L, pv.1 ≠ [] ∧ (∀ seg ∈ pv.1, '.' ∉ seg.data ∧ lowerKey seg = seg) ∧
      (pv.1 <+: q → pv.1 = q)) :
    cleanAlong (putAll M L) q := by
  induction L generalizing M with
  | nil => exact hc
  | cons pv rest ih =>
    rw [putAll_cons]
    obtain ⟨h1, h2, h3⟩ := hL pv (by simp)
    exact ih _ (cleanAlong_putAt pv.1 h1 M q pv.2 hc h2 h3) (fun pv h => hL pv (by simp [h]))

theorem insensitiviseLoop_clean (L acc : List (String × Value))
    (h : ∀ kv ∈ L, lowerKey kv.1 = kv.1 ∧ mapGet acc kv.1 = none)
    (hnd : (L.map Prod.fst).Nodup) :
    insensitiviseLoop acc L = acc ++ L.map (fun kv => (kv.1, insensitiviseVal kv.2)) := by
  induction L generalizing acc with
  | nil => simp [insensitiviseLoop]
  | cons kv rest ih =>
    obtain ⟨k, x⟩ := kv
    obtain ⟨hk, hacc⟩ := h (k, x) (by simp)
    simp only [List.map_cons, List.nodup_cons] at hnd
    simp only [insensitiviseLoop]
    simp only at hk hacc
    rw [hk, mapSet_of_not_mem acc k _ hacc, ih _ (by
      intro kv hkv
      refine ⟨(h kv (by simp [hkv])).1, ?_⟩
      rw [mapGet_append, (h kv (by simp [hkv])).2]
      have hne : k ≠ kv.1 := by
        intro he
        exact hnd.1 (List.mem_map.mpr ⟨kv, hkv, he.symm⟩)
      simp [mapGet, hne]) hnd.2]
    simp

/-- Reloading a map with clean keys keeps its keys, in order. -/
theorem reload_cleanKeys (M : Document) (h : cleanKeys M) :
    insensitiviseFields (jsonFields M)
      = M.map (fun kv => (kv.1, insensitiviseVal (jsonValue kv.2))) := by
  unfold insensitiviseFields
  rw [jsonFields_eq_map, insensitiviseLoop_clean _ [] (by
      intro kv hkv
      obtain ⟨kv2, hkv2, rfl⟩ := List.mem_map.mp hkv
      exact ⟨(h.1 kv2 hkv2).2, rfl⟩) (by
      simpa [List.map_map, Function.comp] using h.2)]
  simp [List.map_map, Function.comp]

theorem cleanKeys_map (g : Value → Value) (M : Document) (h : cleanKeys M) :
    cleanKeys (M.map (fun kv => (kv.1, g kv.2))) := by
  refine ⟨?_, by simpa [List.map_map, Function.comp] using h.2⟩
  intro kv hkv
  obtain ⟨kv2, hkv2, rfl⟩ := List.mem_map.mp hkv
  exact h.1 kv2 hkv2

/-- What is found at a path of a clean map is found, written and read back,
at the same path of the reloaded map. -/
theorem reload_along : ∀ (q : List String), q ≠ [] → ∀ (M : Document) (x : Value),
    cleanAlong M q → searchMap M q = x → x.isNull = false →
    cleanAlong (insensitiviseFields (jsonFields M)) q ∧
      searchMap (insensitiviseFields (jsonFields M)) q = insensitiviseVal (jsonValue x)
  | [], hq, _, _, _, _, _ => absurd rfl hq
  | k :: rest, _, M, x, hc, hx, hxn => by
    obtain ⟨next, hg, hcase⟩ := searchMap_cons_some M k rest x hx hxn
    rw [reload_cleanKeys M hc.1]
    have hg2 := mapGet_map (fun y => insensitiviseVal (jsonValue y)) M k
    rw [hg] at hg2
    simp only [Option.map] at hg2
    rcases hcase with ⟨hr, hxe⟩ | ⟨hr, m2, hm2, hx2⟩
    · subst hr
      subst hxe
      refine ⟨⟨cleanKeys_map (fun y => insensitiviseVal (jsonValue y)) M hc.1, ?_⟩, ?_⟩
      · rw [hg2]
        cases insensitiviseVal (jsonValue x) <;> trivial
      · simp only [searchMap, hg2]
    · subst hm2
      have hc2 : cleanAlong m2 rest := by
        have := hc.2
        rw [hg] at this
        exact this
      obtain ⟨ih1, ih2⟩ := reload_along rest hr m2 x hc2 hx2 hxn
      have hval : insensitiviseVal (jsonValue (.obj m2))
          = .obj (insensitiviseFields (jsonFields m2)) := by
        simp [jsonValue, insensitiviseVal, insensitiviseFields]
      rw [hval] at hg2
      refine ⟨⟨cleanKeys_map (fun y => insensitiviseVal (jsonValue y)) M hc.1, ?_⟩, ?_⟩
      · rw [hg2]
        exact ih1
      · obtain ⟨b, t, rfl⟩ : ∃ b t, rest = b :: t := by
          cases rest with
          | nil => exact absurd rfl hr
          | cons b t => exact ⟨b, t, rfl⟩
        simp only [searchMap, hg2]
        exact ih2

theorem lowerKey_has_dot (s : String) (h : '.' ∈ s.data) : '.' ∈ (lowerKey s).data := by
  unfold lowerKey
  have hd : UnicodeLower.toLower '.' = '.' := by
    rw [UnicodeLower.ascii '.' (by decide)]; rfl
  exact List.mem_map.mpr ⟨'.', h, hd⟩

/-- Viper finds in a clean map what lies at the path. -/
theorem searchIndexable_clean : ∀ (q : List String), q ≠ [] → ∀ (M : Document) (x : Value),
    cleanAlong M q → (∀ seg ∈ q, lowerKey seg = seg) →
    searchMap M q = x → x.isNull = false →
    searchIndexableWithPathPrefixes q.length (.obj M) q = x
  | [], hq, _, _, _, _, _, _ => absurd rfl hq
  | k :: rest, _, M, x, hc, hseg, hx, hxn => by
    obtain ⟨next, hg, hcase⟩ := searchMap_cons_some M k rest x hx hxn
    have hlen : (k :: rest).length = rest.length + 1 := rfl
    rw [hlen]
    simp only [searchIndexableWithPathPrefixes, List.isEmpty_cons, Bool.false_eq_true, if_false,
      List.length_cons]
    rw [candidates_eq, firstNonNull_append_single]
    · have hk : lowerKey (joinKey ((k :: rest).take 1)) = k := by
        simp only [List.take_succ_cons, List.take_zero, joinKey_single]
        exact hseg k (by simp)
      simp only [hk, hg]
      rcases hcase with ⟨hr, hxe⟩ | ⟨hr, m2, hm2, hx2⟩
      · subst hr
        simp [hxe]
      · subst hm2
        have hne : ¬ (1 = rest.length + 1) := by
          cases rest with
          | nil => exact absurd rfl hr
          | cons b t => simp
        rw [if_neg hne]
        simp only [List.drop_succ_cons, List.drop_zero]
        have hc2 : cleanAlong m2 rest := by
          have := hc.2
          rw [hg] at this
          exact this
        exact searchIndexable_clean rest hr m2 x hc2 (fun seg hs => hseg seg (by simp [hs])) hx2 hxn
    · intro j hj
      obtain ⟨i, hi, rfl⟩ := List.mem_map.mp hj
      have hilt : i < rest.length := List.mem_range.mp (List.mem_reverse.mp hi)
      obtain ⟨b, t, rfl⟩ : ∃ b t, rest = b :: t := by
        cases rest with
        | nil => simp at hilt
        | cons b t => exact ⟨b, t, rfl⟩
      have hdot : '.' ∈ (lowerKey (joinKey ((k :: b :: t).take (i + 2)))).data := by
        apply lowerKey_has_dot
        simp only [List.take_succ_cons]
        exact joinKey_dot _ _ _
      have hnone : mapGet M (lowerKey (joinKey ((k :: b :: t).take (i + 2)))) = none := by
        rw [mapGet_eq_none_iff]
        intro kv hkv he
        have := (hc.1.1 kv hkv).1
        rw [he] at this
        exact this hdot
      simp only [hnone]

mutual
/-- JSON values are written to JSON and read back as they are. -/
theorem jsonValue_of_isLowerJSON : ∀ x : Value, isLowerJSON x = true → jsonValue x = x
  | .null, _ => by simp [jsonValue]
  | .bool _, _ => by simp [jsonValue]
  | .num _, _ => by simp [jsonValue]
  | .str _, _ => by simp [jsonValue]
  | .arr xs, h => by
    simp only [isLowerJSON] at h
    simp [jsonValue, jsonList_of_isLowerJSON xs h]
  | .obj kvs, h => by
    simp only [isLowerJSON] at h
    simp [jsonValue, jsonFields_of_isLowerJSON kvs h]
  | .strs _, h => by simp [isLowerJSON] at h
  | .strMap _, h => by simp [isLowerJSON] at h
  | .entry _ _ _, h => by simp [isLowerJSON] at h
theorem jsonList_of_isLowerJSON : ∀ xs : List Value, isLowerJSONList xs = true → jsonList xs = xs
  | [], _ => by simp [jsonList]
  | x :: xs, h => by
    simp only [isLowerJSONList, Bool.and_eq_true] at h
    simp [jsonList, jsonValue_of_isLowerJSON x h.1, jsonList_of_isLowerJSON xs h.2]
theorem jsonFields_of_isLowerJSON : ∀ kvs : List (String × Value), isLowerJSONFields kvs = true →
    jsonFields kvs = kvs
  | [], _ => by simp [jsonFields]
  | (k, x) :: rest, h => by
    simp only [isLowerJSONFields, Bool.and_eq_true] at h
    simp [jsonFields, jsonValue_of_isLowerJSON x h.1.2, jsonFields_of_isLowerJSON rest h.2]
end

theorem cleanKeys_of_wellFormed : ∀ (m : List (String × Value)), wellFormedFields m = true →
    cleanKeys m
  | [], _ => ⟨by simp, by simp⟩
  | (k, x) :: rest, h => by
    rw [wellFormedFields_cons] at h
    obtain ⟨hk, hnd, _, hrest⟩ := h
    obtain ⟨_, hk2, hk3⟩ := (goodKey_iff k).mp hk
    have ih := cleanKeys_of_wellFormed rest hrest
    refine ⟨?_, ?_⟩
    · intro kv hkv
      simp only [List.mem_cons] at hkv
      rcases hkv with hkv | hkv
      · subst hkv; exact ⟨hk2, hk3⟩
      · exact ih.1 kv hkv
    · simp only [List.map_cons, List.nodup_cons]
      refine ⟨?_, ih.2⟩
      intro hmem
      obtain ⟨kv, hkv, he⟩ := List.mem_map.mp hmem
      exact hnd kv hkv he

theorem cleanAlong_of_wellFormed : ∀ (q : List String) (m : List (String × Value)),
    wellFormedFields m = true → cleanAlong m q
  | [], _, _ => trivial
  | k :: rest, m, h => by
    refine ⟨cleanKeys_of_wellFormed m h, ?_⟩
    cases hg : mapGet m k with
    | none => trivial
    | some next =>
      cases next with
      | obj m2 =>
        have := (wellFormedFields_mem m h (k, .obj m2) (mapGet_mem m k _ hg)).2
        simp only [wellFormedValue, Bool.and_eq_true] at this
        exact cleanAlong_of_wellFormed rest m2 this.2
      | _ => trivial

/-- Along a path at which a map is well formed, and below the path, the
keys are clean. -/
theorem cleanAlong_of_wellFormedAt : ∀ (q : List String) (m : Document),
    wellFormedAt m q = true → ∀ r : List String, cleanAlong m (q ++ r)
  | [], _, h, _ => by simp [wellFormedAt] at h
  | k :: t, m, h, r => by
    obtain ⟨hdk, next, hg, hcase⟩ := wellFormedAt_cons m k t h
    refine ⟨cleanKeys_of_distinctGoodKeys m hdk, ?_⟩
    rw [hg]
    rcases hcase with ⟨ht, hw⟩ | ⟨ht, m2, hm2, hw⟩
    · subst ht
      cases next with
      | obj m2 =>
        simp only [wellFormedValue, Bool.and_eq_true] at hw
        exact cleanAlong_of_wellFormed r m2 hw.2
      | _ => trivial
    · subst hm2
      exact cleanAlong_of_wellFormedAt t m2 hw r

mutual
/-- A well-formed value is written to JSON and read back as it is. -/
theorem reload_wellFormedValue : ∀ x : Value, wellFormedValue x = true →
    insensitiviseVal (jsonValue x) = x
  | .obj m, h => by
    simp only [wellFormedValue, Bool.and_eq_true] at h
    have h1 := reload_cleanKeys m (cleanKeys_of_wellFormed m h.2)
    have h2 := reload_wellFormedFields m h.2
    simp only [jsonValue, insensitiviseVal]
    unfold insensitiviseFields at h1
    rw [h1, h2]
  | .arr xs, h => by
    simp only [wellFormedValue] at h
    simp [jsonValue, insensitiviseVal, jsonList_of_isLowerJSON xs h]
  | .null, h => by simp [wellFormedValue] at h
  | .bool _, _ => by simp [jsonValue, insensitiviseVal]
  | .num _, _ => by simp [jsonValue, insensitiviseVal]
  | .str _, _ => by simp [jsonValue, insensitiviseVal]
  | .strs _, h => by simp [wellFormedValue] at h
  | .strMap _, h => by simp [wellFormedValue] at h
  | .entry _ _ _, h => by simp [wellFormedValue] at h
theorem reload_wellFormedFields : ∀ m : List (String × Value), wellFormedFields m = true →
    m.map (fun kv => (kv.1, insensitiviseVal (jsonValue kv.2))) = m
  | [], _ => rfl
  | (k, x) :: rest, h => by
    rw [wellFormedFields_cons] at h
    simp [reload_wellFormedValue x h.2.2.1, reload_wellFormedFields rest h.2.2.2]
end

theorem flattenLeaf_lower (S : List String) (f s : String) (hS : ∀ s ∈ S, lowerKey s = s)
    (hs : s ∈ (if S.contains (lowerKey f) then S else S ++ [lowerKey f])) : lowerKey s = s := by
  split at hs
  · exact hS s hs
  · rcases List.mem_append.mp hs with h | h
    · exact hS s h
    · simp only [List.mem_singleton] at h
      subst h
      exact lowerKey_lowerKey f

mutual
theorem flattenValue_lower : ∀ (x : Value) (S : List String) (f : String),
    (∀ s ∈ S, lowerKey s = s) → ∀ s ∈ flattenValue S f x, lowerKey s = s
  | .obj m, S, f, hS, s, hs => by
    simp only [flattenValue] at hs
    split at hs
    · exact hS s hs
    · exact flattenLoop_lower m S _ hS s hs
  | .null, S, f, hS, s, hs => flattenLeaf_lower S f s hS (by simpa [flattenValue] using hs)
  | .bool _, S, f, hS, s, hs => flattenLeaf_lower S f s hS (by simpa [flattenValue] using hs)
  | .num _, S, f, hS, s, hs => flattenLeaf_lower S f s hS (by simpa [flattenValue] using hs)
  | .str _, S, f, hS, s, hs => flattenLeaf_lower S f s hS (by simpa [flattenValue] using hs)
  | .arr _, S, f, hS, s, hs => flattenLeaf_lower S f s hS (by simpa [flattenValue] using hs)
  | .strs _, S, f, hS, s, hs => flattenLeaf_lower S f s hS (by simpa [flattenValue] using hs)
  | .strMap _, S, f, hS, s, hs => flattenLeaf_lower S f s hS (by simpa [flattenValue] using hs)
  | .entry _ _ _, S, f, hS, s, hs => flattenLeaf_lower S f s hS (by simpa [flattenValue] using hs)
/-- Every key viper's flattening lists is in lower case. -/
theorem flattenLoop_lower : ∀ (m : List (String × Value)) (S : List String) (pfx : String),
    (∀ s ∈ S, lowerKey s = s) → ∀ s ∈ flattenLoop S pfx m, lowerKey s = s
  | [], S, _, hS, s, hs => by
    simp only [flattenLoop] at hs
    exact hS s hs
  | (k, x) :: rest, S, pfx, hS, s, hs => by
    simp only [flattenLoop] at hs
    exact flattenLoop_lower rest _ pfx (flattenValue_lower x S (pfx ++ k) hS) s hs
end

mutual
/-- The keys listed for a well-formed value are cut into the paths of its
leaves. -/
theorem leafKeysValue_paths : ∀ x : Value, wellFormedValue x = true →
    ∀ (f : String) (P : List String), splitKey f = P →
      (leafKeysValue f x).map splitKey = (leavesValue P x).map Prod.fst
  | .obj m, h, f, P, hf => by
    simp only [wellFormedValue, Bool.and_eq_true] at h
    simp only [leafKeysValue, leavesValue]
    exact leafKeysFields_paths m h.2 f P hf
  | .null, h, _, _, _ => by simp [wellFormedValue] at h
  | .bool _, _, f, P, hf => by simp [leafKeysValue, leavesValue, hf]
  | .num _, _, f, P, hf => by simp [leafKeysValue, leavesValue, hf]
  | .str _, _, f, P, hf => by simp [leafKeysValue, leavesValue, hf]
  | .arr _, _, f, P, hf => by simp [leafKeysValue, leavesValue, hf]
  | .strs _, h, _, _, _ => by simp [wellFormedValue] at h
  | .strMap _, h, _, _, _ => by simp [wellFormedValue] at h
  | .entry _ _ _, h, _, _, _ => by simp [wellFormedValue] at h
theorem leafKeysFields_paths : ∀ m : List (String × Value), wellFormedFields m = true →
    ∀ (f : String) (P : List String), splitKey f = P →
      (leafKeysFields (f ++ ".") m).map splitKey = (leavesFields P m).map Prod.fst
  | [], _, _, _, _ => by simp [leafKeysFields, leavesFields]
  | (k, x) :: rest, h, f, P, hf => by
    rw [wellFormedFields_cons] at h
    obtain ⟨hk, _, hx, hrest⟩ := h
    obtain ⟨_, hk2, _⟩ := (goodKey_iff k).mp hk
    simp only [leafKeysFields, leavesFields, List.map_append]
    rw [leafKeysValue_paths x hx (f ++ "." ++ k) (P ++ [k])
        (by rw [splitKey_append_dot, hf, splitKey_dotless k hk2]),
      leafKeysFields_paths rest hrest f P hf]
end

mutual
/-- Each leaf of a well-formed value found at a path of a map is found at
its own path, and is not nil. -/
theorem leavesValue_search : ∀ x : Value, wellFormedValue x = true →
    ∀ (c : Document) (p : List String), p ≠ [] → searchMap c p = x →
      ∀ pv ∈ leavesValue p x, searchMap c pv.1 = pv.2 ∧ pv.2.isNull = false ∧ p <+: pv.1
  | .obj m, h, c, p, hp, hx, pv, hpv => by
    simp only [wellFormedValue, Bool.and_eq_true] at h
    simp only [leavesValue] at hpv
    refine leavesFields_search m h.2 c p ?_ pv hpv
    intro kv hkv
    rw [searchMap_snoc p hp c m kv.1 hx,
      mapGet_of_mem_nodup m kv.1 kv.2 (cleanKeys_of_wellFormed m h.2).2 hkv]
  | .null, h, _, _, _, _, _, _ => by simp [wellFormedValue] at h
  | .bool _, _, c, p, _, hx, pv, hpv => by
    simp only [leavesValue, List.mem_singleton] at hpv
    subst hpv
    exact ⟨hx, rfl, List.prefix_refl _⟩
  | .num _, _, c, p, _, hx, pv, hpv => by
    simp only [leavesValue, List.mem_singleton] at hpv
    subst hpv
    exact ⟨hx, rfl, List.prefix_refl _⟩
  | .str _, _, c, p, _, hx, pv, hpv => by
    simp only [leavesValue, List.mem_singleton] at hpv
    subst hpv
    exact ⟨hx, rfl, List.prefix_refl _⟩
  | .arr _, _, c, p, _, hx, pv, hpv => by
    simp only [leavesValue, List.mem_singleton] at hpv
    subst hpv
    exact ⟨hx, rfl, List.prefix_refl _⟩
  | .strs _, h, _, _, _, _, _, _ => by simp [wellFormedValue] at h
  | .strMap _, h, _, _, _, _, _, _ => by simp [wellFormedValue] at h
  | .entry _ _ _, h, _, _, _, _, _, _ => by simp [wellFormedValue] at h
theorem leavesFields_search : ∀ m : List (String × Value), wellFormedFields m = true →
    ∀ (c : Document) (p : List String), (∀ kv ∈ m, searchMap c (p ++ [kv.1]) = kv.2) →
      ∀ pv ∈ leavesFields p m, searchMap c pv.1 = pv.2 ∧ pv.2.isNull = false ∧ p <+: pv.1
  | [], _, _, _, _, pv, hpv => by simp [leavesFields] at hpv
  | (k, x) :: rest, h, c, p, hm, pv, hpv => by
    rw [wellFormedFields_cons] at h
    simp only [leavesFields, List.mem_append] at hpv
    rcases hpv with hpv | hpv
    · obtain ⟨h1, h2, h3⟩ := leavesValue_search x h.2.2.1 c (p ++ [k]) (by simp)
        (hm (k, x) (by simp)) pv hpv
      exact ⟨h1, h2, (List.prefix_append _ _).trans h3⟩
    · exact leavesFields_search rest h.2.2.2 c p (fun kv hkv => hm kv (by simp [hkv])) pv hpv
end

theorem Get_eq_findAt (v : Viper) (s : String) (h : lowerKey s = s) :
    v.Get s = v.findAt (splitKey s) := by
  unfold Viper.Get
  rw [h]
  rfl

theorem lowerKey_of_mem_splitKey_fixed (s seg : String) (h : lowerKey s = s)
    (hm : seg ∈ splitKey s) : lowerKey seg = seg := by
  rw [← h] at hm
  exact lowerKey_of_mem_splitKey s seg hm

/-- The loop of `AllSettings` over keys in lower case is a run of
assignments at the paths of the keys that hold a value. -/
theorem foldl_settings (v : Viper) (K : List String) (M : Document)
    (h : ∀ s ∈ K, lowerKey s = s) :
    K.foldl (fun m k =>
      let value := v.Get k
      if value.isNull then m
      else
        let path := splitKey k
        setDeep m path.dropLast (lowerKey (path.getLastD "")) value) M
    = putAll M (K.filterMap (fun s =>
        if (v.Get s).isNull then none else some (splitKey s, v.Get s))) := by
  induction K generalizing M with
  | nil => rfl
  | cons s rest ih =>
    have hs := h s (by simp)
    have hlast : lowerKey ((splitKey s).getLastD "") = (splitKey s).getLastD "" :=
      lowerKey_of_mem_splitKey_fixed s _ hs (getLastD_mem _ (splitKey_ne_nil s))
    simp only [List.foldl_cons, List.filterMap_cons]
    rw [ih _ (fun t ht => h t (by simp [ht]))]
    by_cases hn : (v.Get s).isNull = true
    · simp [hn]
    · simp only [hn, Bool.false_eq_true, if_false, putAll_cons, putAt, hlast]

/-- Viper finds under a path that the overrides neither hold nor shadow
what the settings file has there. -/
theorem findAt_under (v : Viper) (q p : List String) (y : Value) (hq : q ≠ [])
    (hpre : q <+: p) (ho : searchMap v.override q = .null)
    (hs : isPathShadowedInDeepMap q v.override = "")
    (hc : cleanAlong v.config p) (hseg : ∀ seg ∈ p, lowerKey seg = seg)
    (hy : searchMap v.config p = y) (hyn : y.isNull = false) :
    v.findAt p = y := by
  obtain ⟨r, rfl⟩ := hpre
  have ho2 : searchMap v.override (q ++ r) = .null := searchMap_null_append q r _ ho
  have hs2 : isPathShadowedInDeepMap (q ++ r) v.override = "" := by
    by_cases hr : r = []
    · subst hr
      simpa using hs
    · exact isPathShadowed_extend q r _ hq hr hs ho
  have hne : q ++ r ≠ [] := by simp [hq]
  unfold Viper.findAt
  simp only [ho2, hs2, Value.isNull, Bool.not_true, Bool.false_eq_true, if_false, bne_self_eq_false,
    Bool.and_false]
  exact searchIndexable_clean (q ++ r) hne v.config y hc hseg hy hyn

/-- Assigning the leaves of a well-formed value under a path that holds
nothing puts the value there. -/
theorem putAll_leaves_at (x : Value) (hx : wellFormedValue x = true) (q : List String)
    (hq : q ≠ []) (M : Document) (hM : searchMap M q = .null) :
    searchMap (putAll M (leavesValue q x)) q = x := by
  have hsub : subAt M q = [] := by simp [subAt, hM]
  cases x with
  | obj m =>
    simp only [wellFormedValue, Bool.and_eq_true, Bool.not_eq_true', List.isEmpty_eq_false] at hx
    have hm : m ≠ [] := by
      intro hm
      have := hx.1
      simp [hm] at this
    have hsh := leavesFields_shift q [] m
    simp only [List.append_nil] at hsh
    simp only [leavesValue]
    rw [hsh, putAll_project q _ (leavesFields_nil_paths m) (leavesFields_ne_nil [] m hx.2 hm),
      hsub, putAll_leavesFields m hx.2 [] (by intro kv _; rfl)]
    rfl
  | null => simp [wellFormedValue] at hx
  | bool _ => exact searchMap_putAt_same q M _ hq
  | num _ => exact searchMap_putAt_same q M _ hq
  | str _ => exact searchMap_putAt_same q M _ hq
  | arr _ => exact searchMap_putAt_same q M _ hq
  | strs _ => simp [wellFormedValue] at hx
  | strMap _ => simp [wellFormedValue] at hx
  | entry _ _ _ => simp [wellFormedValue] at hx

/-- The snapshot `AllSettings` holds, at a path that the overrides neither
hold, shadow nor lie under, the value the settings file, well formed at the
path, has there, and its maps along the path have clean keys. -/
theorem AllSettings_at (v : Viper) (q : List String) (x : Value) (hq : q ≠ [])
    (hw : wellFormedAt v.config q = true)
    (hclear : ∀ s ∈ flattenLoop [] "" v.override, ¬ splitKey s <+: q ∧ ¬ q <+: splitKey s)
    (ho : searchMap v.override q = .null) (hs : isPathShadowedInDeepMap q v.override = "")
    (hx : searchMap v.config q = x) (hxn : x.isNull = false) :
    searchMap v.AllSettings q = x ∧ cleanAlong v.AllSettings q := by
  obtain ⟨J1, J2, fq, hflat, hfq, _, hxw, hJ⟩ :=
    flattenLoop_through q hq v.config (flattenLoop [] "" v.override) "" [] x hw
      (by
        intro k hk
        have : "" ++ k = k := by apply String.ext; simp [String.data_append]
        rw [this, splitKey_dotless k hk]; rfl)
      rfl hx hxn (by simpa using hclear)
  simp only [List.nil_append] at hfq hJ
  have hkeys : v.AllKeys = flattenLoop [] "" v.override ++ J1 ++ leafKeysValue fq x ++ J2 := hflat
  have hlow : ∀ s ∈ v.AllKeys, lowerKey s = s :=
    flattenLoop_lower _ _ _ (flattenLoop_lower _ [] _ (by simp))
  have hall : v.AllSettings = putAll [] (v.AllKeys.filterMap (fun s =>
      if (v.Get s).isNull then none else some (splitKey s, v.Get s))) :=
    foldl_settings v v.AllKeys [] hlow
  -- the run of the leaves under `q`
  have hleaf : ∀ pv ∈ leavesValue q x, v.findAt pv.1 = pv.2 ∧ pv.2.isNull = false := by
    intro pv hpv
    obtain ⟨h1, h2, h3⟩ := leavesValue_search x hxw v.config q hq hx pv hpv
    have hmem : pv.1 ∈ (leafKeysValue fq x).map splitKey := by
      rw [leafKeysValue_paths x hxw fq q hfq]
      exact List.mem_map.mpr ⟨pv, hpv, rfl⟩
    obtain ⟨s, hs1, hs2⟩ := List.mem_map.mp hmem
    have hsl : lowerKey s = s := hlow s (by rw [hkeys]; simp [hs1])
    have hcl : cleanAlong v.config pv.1 := by
      obtain ⟨r, hr⟩ := h3
      rw [← hr]
      exact cleanAlong_of_wellFormedAt q v.config hw r
    refine ⟨findAt_under v q pv.1 pv.2 hq h3 ho hs hcl ?_ h1 h2, h2⟩
    intro seg hseg
    rw [← hs2] at hseg
    exact lowerKey_of_mem_splitKey_fixed s seg hsl hseg
  have hrun : (leafKeysValue fq x).filterMap (fun s =>
      if (v.Get s).isNull then none else some (splitKey s, v.Get s)) = leavesValue q x := by
    have hval : ∀ s ∈ leafKeysValue fq x,
        v.Get s = v.findAt (splitKey s) ∧ (v.findAt (splitKey s)).isNull = false := by
      intro s hs1
      have hsl : lowerKey s = s := hlow s (by rw [hkeys]; simp [hs1])
      have hmem : splitKey s ∈ (leavesValue q x).map Prod.fst := by
        rw [← leafKeysValue_paths x hxw fq q hfq]
        exact List.mem_map.mpr ⟨s, hs1, rfl⟩
      obtain ⟨pv, hpv, hpe⟩ := List.mem_map.mp hmem
      have := hleaf pv hpv
      rw [hpe] at this
      exact ⟨Get_eq_findAt v s hsl, by rw [this.1]; exact this.2⟩
    rw [filterMap_eq_map_of _ (fun s => (splitKey s, v.findAt (splitKey s))) _ (by
      intro s hs1
      obtain ⟨h1, h2⟩ := hval s hs1
      simp only [h1, h2, Bool.false_eq_true, if_false])]
    have e1 : (leafKeysValue fq x).map (fun s => (splitKey s, v.findAt (splitKey s)))
        = ((leafKeysValue fq x).map splitKey).map (fun p => (p, v.findAt p)) := by
      simp [List.map_map, Function.comp]
    rw [e1, leafKeysValue_paths x hxw fq q hfq, List.map_map]
    conv_rhs => rw [← List.map_id (leavesValue q x)]
    apply List.map_congr_left
    intro pv hpv
    simp only [Function.comp, id]
    rw [(hleaf pv hpv).1]
  -- keys off the path
  have hoff : ∀ K : List String,
      (∀ s ∈ K, ¬ splitKey s <+: q ∧ ¬ q <+: splitKey s) →
      ∀ pv ∈ K.filterMap (fun s =>
        if (v.Get s).isNull then none else some (splitKey s, v.Get s)),
        ¬ pv.1 <+: q ∧ ¬ q <+: pv.1 := by
    intro K hK pv hpv
    obtain ⟨s, hs1, hs2⟩ := List.mem_filterMap.mp hpv
    by_cases hn : (v.Get s).isNull = true
    · simp [hn] at hs2
    · simp only [hn, Bool.false_eq_true, if_false, Option.some.injEq] at hs2
      subst hs2
      exact hK s hs1
  have hS0J1 : ∀ s ∈ flattenLoop [] "" v.override ++ J1,
      ¬ splitKey s <+: q ∧ ¬ q <+: splitKey s := by
    intro s hs1
    rcases List.mem_append.mp hs1 with h | h
    · exact hclear s h
    · exact (hJ s (by simp [h])).2
  have hJ2 : ∀ s ∈ J2, ¬ splitKey s <+: q ∧ ¬ q <+: splitKey s :=
    fun s h => (hJ s (by simp [h])).2
  constructor
  · rw [hall, hkeys, List.filterMap_append, List.filterMap_append, putAll_append, putAll_append,
      putAll_diverge q _ _ (hoff J2 hJ2), hrun]
    apply putAll_leaves_at x hxw q hq
    rw [putAll_diverge q _ _ (hoff _ hS0J1)]
    cases q with
    | nil => exact absurd rfl hq
    | cons a t => exact searchMap_nil_cons a t
  · rw [hall]
    apply cleanAlong_putAll _ _ _ (cleanAlong_nil q)
    intro pv hpv
    obtain ⟨s, hs1, hs2⟩ := List.mem_filterMap.mp hpv
    by_cases hn : (v.Get s).isNull = true
    · simp [hn] at hs2
    · simp only [hn, Bool.false_eq_true, if_false, Option.some.injEq] at hs2
      subst hs2
      have hsl := hlow s hs1
      refine ⟨splitKey_ne_nil s, ?_, ?_⟩
      · intro seg hseg
        exact ⟨splitKey_mem_dotless s seg hseg, lowerKey_of_mem_splitKey_fixed s seg hsl hseg⟩
      · intro hp
        rw [hkeys] at hs1
        simp only [List.mem_append] at hs1
        rcases hs1 with ((h | h) | h) | h
        · exact absurd hp (hclear s h).1
        · exact absurd hp (hJ s (by simp [h])).2.1
        · have h2 := leafKeysValue_prefix x fq s h
          rw [hfq] at h2
          exact List.IsPrefix.eq_of_length hp (Nat.le_antisymm hp.length_le h2.length_le)
        · exact absurd hp (hJ s (by simp [h])).2.1

theorem overrideClear_iff (v : Viper) (key : String) :
    overrideClear v key = true ↔
      ∀ s ∈ flattenLoop [] "" v.override,
        ¬ splitKey s <+: splitKey (lowerKey key) ∧ ¬ splitKey (lowerKey key) <+: splitKey s := by
  have hp : ∀ a b : List String, a.isPrefixOf b = false ↔ ¬ a <+: b := by
    intro a b
    rw [← Bool.not_eq_true]
    exact not_congr List.isPrefixOf_iff_prefix
  simp [overrideClear, List.all_eq_true, hp]

/-- What `viper.Get` returns for a key is the same after `invalidateCache`
when the overrides hold the key, or when the settings file is well formed
at the key and no override lies at, above or under it. -/
theorem Get_invalidateCache (k key2 : String) (v : Viper)
    (h : (searchMap v.override (splitKey (lowerKey key2))).isNull = false ∨
      (wellFormedAt v.config (splitKey (lowerKey key2)) = true ∧
        overrideClear v key2 = true)) :
    (invalidateCache k v).1.Get key2 = v.Get key2 := by
  have hq : splitKey (lowerKey key2) ≠ [] := splitKey_ne_nil _
  show (invalidateCache k v).1.findAt (splitKey (lowerKey key2))
    = v.findAt (splitKey (lowerKey key2))
  generalize hqd : splitKey (lowerKey key2) = q at h hq
  have hseg : ∀ seg ∈ q, lowerKey seg = seg := by
    intro seg hs
    rw [← hqd] at hs
    exact lowerKey_of_mem_splitKey key2 seg hs
  have hov : (invalidateCache k v).1.override = v.override := invalidateCache_override k v
  by_cases ho : (searchMap v.override q).isNull = false
  · simp only [Viper.findAt, hov, ho, Bool.not_false, if_true]
  · have ho2 : searchMap v.override q = .null :=
      isNull_eq_true _ (by simpa using ho)
    rcases h with h | ⟨hw, hclr⟩
    · exact absurd h ho
    · by_cases hsh : isPathShadowedInDeepMap q v.override = ""
      · have hclear := (overrideClear_iff v key2).mp hclr
        rw [hqd] at hclear
        have hxw : wellFormedValue (searchMap v.config q) = true :=
          wellFormedAt_search q v.config hw
        have hcn : (searchMap v.config q).isNull = false := isNull_of_wellFormedValue _ hxw
        obtain ⟨hM, hMc⟩ := AllSettings_at v q (searchMap v.config q) hq hw hclear ho2 hsh rfl hcn
        have hdel : mapDelete v.AllSettings (cacheKey k) = v.AllSettings := by
          apply mapDelete_of_not_mem
          intro kv hkv he
          obtain ⟨a, t, rfl⟩ : ∃ a t, q = a :: t := by
            cases q with
            | nil => exact absurd rfl hq
            | cons a t => exact ⟨a, t, rfl⟩
          have := (hMc.1.1 kv hkv).1
          rw [he] at this
          exact this (cacheKey_has_dot k)
        have hcfg : (invalidateCache k v).1.config
            = insensitiviseFields (jsonFields v.AllSettings) := by
          show insensitiviseFields (jsonFields (mapDelete v.AllSettings (cacheKey k))) = _
          rw [hdel]
        obtain ⟨hRc, hR⟩ := reload_along q hq v.AllSettings (searchMap v.config q) hMc hM hcn
        rw [reload_wellFormedValue _ hxw] at hR
        rw [findAt_under v q q _ hq (List.prefix_refl _) ho2 hsh
            (by simpa using cleanAlong_of_wellFormedAt q v.config hw []) hseg rfl hcn]
        exact findAt_under (invalidateCache k v).1 q q _ hq (List.prefix_refl _)
          (by rw [hov]; exact ho2) (by rw [hov]; exact hsh) (by rw [hcfg]; exact hRc) hseg
          (by rw [hcfg]; exact hR) hcn
      · have hlen : q.length > 1 := by
          obtain ⟨a, t, rfl⟩ : ∃ a t, q = a :: t := by
            cases q with
            | nil => exact absurd rfl hq
            | cons a t => exact ⟨a, t, rfl⟩
          cases t with
          | nil => exact absurd (isPathShadowed_single a _) hsh
          | cons b t2 => simp
        simp only [Viper.findAt, hov, ho2, Value.isNull, Bool.not_true, Bool.false_eq_true,
          if_false, hlen, decide_True, Bool.true_and, bne_iff_ne, ne_eq, hsh, not_false_eq_true,
          if_true]

/-- C14, amended: `invalidateCache(k)` leaves every other key `key2` that
the store holds in one of two ways as it was: either the overrides (the
values written by `viper.Set` in the running process) hold a value at
`key2`, or the loaded settings file is well formed at `key2` and no
override key lies at, above or under `key2`.  Well formed at `key2` means:
the maps on the way down to `key2` have distinct, non-empty, lower-case keys
without `.`, and the value at `key2` is a JSON value other than nil whose
maps, at every depth, are not empty, hold no nil and have such keys, and
whose slices hold JSON values with lower-case map keys.  Then
`viper.Get(key2)` returns the same value after the call as before, and so
`getCache` returns the same result for every other logical key `k2` whose
namespaced key is `key2`. -/
theorem invalidateCache_other_keys (k key2 : String) (v : Viper) (_hne : key2 ≠ cacheKey k)
    (h : (searchMap v.override (splitKey (lowerKey key2))).isNull = false ∨
      (wellFormedAt v.config (splitKey (lowerKey key2)) = true ∧
        overrideClear v key2 = true)) :
    (invalidateCache k v).1.Get key2 = v.Get key2 ∧
    ∀ (T : Type) [GoType T] (k2 : String) (now : Int), cacheKey k2 = key2 →
      getCache T k2 now (invalidateCache k v).1 = getCache T k2 now v := by
  have hGet := Get_invalidateCache k key2 v h
  refine ⟨hGet, ?_⟩
  intro T _ k2 now hk
  subst hk
  unfold getCache
  rw [hGet]

/-! ## Reads as steps on the store -/

/-- C16: `getCache` never modifies the store.  Run as a step on the store,
it hands on the store it received, for every store, key, type and clock
value, and returns what the pure `getCache` returns.  When the result is
`ErrExpired` the entry is still there after the call: the store after the
call holds a value that is not nil at the namespaced key, and `getCache` on
that store at any clock value from `now` on returns the same stale data
with `ErrExpired` again.  A second `getCache` at the same clock value on
the store the first one left returns the same result. -/
theorem getCacheRun_reads_only (T : Type) [GoType T] (key : String) (now : Int) (v : Viper) :
    (getCacheRun T key now v).2 = v ∧
    (getCacheRun T key now v).1 = getCache T key now v ∧
    ((getCacheRun T key now v).1.2 = some CacheError.ErrExpired →
      ((getCacheRun T key now v).2.Get (cacheKey key)).isNull = false ∧
      ∀ t2 : Int, now ≤ t2 →
        (getCacheRun T key t2 (getCacheRun T key now v).2).1 = (getCacheRun T key now v).1) ∧
    (getCacheRun T key now (getCacheRun T key now v).2).1 = (getCacheRun T key now v).1 := by
  have hstore : ∀ (t : Int) (w : Viper), (getCacheRun T key t w).2 = w := by
    intro t w
    unfold getCacheRun Viper.GetStep
    simp only []
    split
    · rfl
    · split <;> rfl
  have hres : ∀ (t : Int) (w : Viper), (getCacheRun T key t w).1 = getCache T key t w := by
    intro t w
    unfold getCacheRun getCache Viper.GetStep Viper.Get
    simp only []
    split
    · rfl
    · split <;> rfl
  refine ⟨hstore now v, hres now v, ?_, by rw [hstore now v]⟩
  intro hexp
  rw [hstore now v]
  rw [hres now v] at hexp
  constructor
  · cases hv : v.Get (cacheKey key) with
    | null =>
      unfold getCache at hexp
      simp [hv, Decode] at hexp
    | _ => rfl
  · intro t2 ht
    rw [hres t2 v, hres now v]
    unfold getCache at hexp ⊢
    simp only [] at hexp ⊢
    by_cases hd : (Decode (v.Get (cacheKey key))
        ({ Expiration := 0, Data := GoType.zero } : Entry T)).2 = true
    · simp [hd] at hexp
    · simp only [hd, Bool.false_eq_true, if_false] at hexp ⊢
      by_cases he : (Decode (v.Get (cacheKey key))
          ({ Expiration := 0, Data := GoType.zero } : Entry T)).1.Expiration ≠ 0 ∧
          (Decode (v.Get (cacheKey key))
            ({ Expiration := 0, Data := GoType.zero } : Entry T)).1.Expiration < now
      · have he2 : (Decode (v.Get (cacheKey key))
            ({ Expiration := 0, Data := GoType.zero } : Entry T)).1.Expiration ≠ 0 ∧
            (Decode (v.Get (cacheKey key))
              ({ Expiration := 0, Data := GoType.zero } : Entry T)).1.Expiration < t2 :=
          ⟨he.1, by omega⟩
        rw [if_pos he, if_pos he2]
      · rw [if_neg he] at hexp
        simp at hexp

end Theorems

/-! ## Closed instances: counterexamples, failing inputs and witnesses

The keys and values of these examples are ASCII text, so they are computed
with the ASCII part of the lower-casing. -/

section Examples

attribute [local instance] asciiLower

/-- C1, counterexample: at clock 1700000000 a time-to-live of the largest
`int64` makes `now + ttl` wrap to a negative expiration, so the read at the
very same clock value, inside the window `t0 <= t < t0 + ttl`, reports
`ErrExpired`. -/
theorem setCache_getCache_overflow_expired :
    (0 : Int) < 9223372036854775807 ∧ (1700000000 : Int) ≤ 1700000000 ∧
    (1700000000 : Int) < 1700000000 + 9223372036854775807 ∧
    getCache String "k" 1700000000
        (setCache "k" 9223372036854775807 "v" 1700000000 emptyStore).1
      = ("v", some CacheError.ErrExpired) := by
  decide

/-- C1, witness: a half-hour entry written at 1700000000 and read 100
seconds later. -/
theorem setCache_getCache_within_ttl_witness :
    getCache String "k" 1700000100 (setCache "k" 1800 "v" 1700000000 emptyStore).1
      = ("v", none) :=
  setCache_getCache_within_ttl "k" 1800 "v" 1700000000 1700000100 emptyStore
    (by decide) (by decide) (by decide) (by decide) (by decide)

/-- C3, counterexample: on the empty store the key `database_names` was
never set and the store's `Get` yields nil, yet `getCache` returns a nil
error (with the zero value). -/
theorem getCache_never_set_no_error :
    (emptyStore.Get (cacheKey "database_names")).isNull = true ∧
    getCache (Option (List String)) "database_names" 1700000000 emptyStore = (none, none) := by
  decide

/-- C3, witness: the key `locations` on the empty store. -/
theorem getCache_absent_key_witness :
    getCache (Option (List (String × String))) "locations" 5 emptyStore = (none, none) :=
  getCache_absent_key "locations" 5 emptyStore rfl

/-- C4, the code at the failing input: after `setCache` of the database
names and `invalidateCache` of the same key, `getCache` still returns the
names with no error, while on the store where the key was never set it
returns the nil slice; the same holds when the entry sits in the loaded
settings file instead of the overrides. -/
theorem invalidateCache_keeps_entry :
    getCache (Option (List String)) "database_names" 1700000100
        (invalidateCache "database_names"
          (setCache "database_names" 1800 (some ["a", "b"]) 1700000000 emptyStore).1).1
      = (some ["a", "b"], none) ∧
    getCache (Option (List String)) "database_names" 1700000100 emptyStore = (none, none) ∧
    getCache (Option (List String)) "database_names" 1700000100
        (invalidateCache "database_names" (persistedStore 1700001800)).1
      = (some ["a", "b"], none) := by
  decide

/-- C5, witness: the persisted entry with expiration 1700001800 read at
clock 1700000000. -/
theorem getCache_fresh_iff_witness :
    getCache (Option (List String)) "database_names" 1700000000 (persistedStore 1700001800)
      = (some ["a", "b"], none) :=
  (getCache_fresh_iff "database_names" 1700000000 (persistedStore 1700001800)
    { Expiration := 1700001800, Data := some ["a", "b"] } (by decide)).1

/-- C6, witness: the names `a`, `b` set at 1700000000 and read 1799
seconds later. -/
theorem dbNames_round_trip_witness :
    GetDbNamesCache 1700001799 (SetDbNamesCache (some ["a", "b"]) 1700000000 emptyStore)
      = some ["a", "b"] :=
  dbNames_round_trip (some ["a", "b"]) 1700000000 1700001799 emptyStore
    (by decide) (by decide) (by decide) (by decide)

/-- C7, witness: names set at 1700000000 and read 1801 seconds later, and
the error case on the persisted store at that clock. -/
theorem GetDbNamesCache_nil_on_error_witness :
    ((getCache (Option (List String)) DB_NAMES_CACHE_KEY 1700001801
        (persistedStore 1700001800)).2 ≠ none →
      GetDbNamesCache 1700001801 (persistedStore 1700001800) = none) ∧
    GetDbNamesCache 1700001801 (SetDbNamesCache (some ["a", "b"]) 1700000000 emptyStore)
      = none :=
  GetDbNamesCache_nil_on_error (persistedStore 1700001800) emptyStore 1700001801
    (some ["a", "b"]) 1700000000 1700001801 (by decide) (by decide) (by decide) (by decide)

/-- C9, the code at the failing input: after `SetLocationsCache` of
`waw -> Warsaw` with closest region `waw` and `invalidateCache` of
`defaultLocation` alone, `LocationsCache` returns the mapping and `waw`,
not `(nil, "")`; and on a store that holds the mapping but never held the
closest region it returns the mapping with `""`. -/
theorem LocationsCache_after_invalidate_default :
    LocationsCache 1700000100 1700000100
        (invalidateCache DEFAULT_REGION_CACHE_KEY
          (SetLocationsCache (some [("waw", "Warsaw")]) "waw" 1700000000 1700000000
            emptyStore)).1
      = (some [("waw", "Warsaw")], "waw") ∧
    LocationsCache 1700000100 1700000100
        (setCache REGIONS_CACHE_KEY REGIONS_CACHE_TTL_SECONDS
          (some [("waw", "Warsaw")]) 1700000000 emptyStore).1
      = (some [("waw", "Warsaw")], "") := by
  decide

/-- C10, witness: `waw -> Warsaw` with closest region `waw`, written at
1700000000 and 1700000001, read at 1700020000 and 1700020001. -/
theorem locations_round_trip_witness :
    LocationsCache 1700020000 1700020001
        (SetLocationsCache (some [("waw", "Warsaw")]) "waw" 1700000000 1700000001 emptyStore)
      = (some [("waw", "Warsaw")], "waw") :=
  (locations_round_trip (some [("waw", "Warsaw")]) "waw" 1700000000 1700000001
    1700020000 1700020001 emptyStore (by decide) (by decide) (by decide) (by decide)
    (by decide)).1

/-- C11, witness: a half-hour entry written at 1700000000 and read 1801
seconds later. -/
theorem setCache_getCache_expired_witness :
    getCache String "k" 1700001801 (setCache "k" 1800 "v" 1700000000 emptyStore).1
      = ("v", some CacheError.ErrExpired) :=
  setCache_getCache_expired "k" 1800 "v" 1700000000 1700001801 emptyStore
    (by decide) (by decide) (by decide) (by decide) (by decide)

/-- C12, counterexample: a stored entry whose expiration is a string fails
to decode, and `getCache` returns the decode error together with the two
names, which were decoded all the same; a stored entry with a number among
its names returns the error together with the names decoded so far. -/
theorem getCache_decode_error_keeps_data :
    getCache (Option (List String)) "k" 5 badExpirationStore
      = (some ["a", "b"], some (CacheError.decodeFailed "k")) ∧
    getCache (Option (List String)) "k" 5 badElementStore
      = (some ["a", ""], some (CacheError.decodeFailed "k")) := by
  decide

/-- C12, witness: the entry whose expiration is a string. -/
theorem getCache_decode_error_witness :
    getCache (Option (List String)) "k" 5 badExpirationStore
      = (some ["a", "b"], some (CacheError.decodeFailed "k")) :=
  (getCache_decode_error "k" 5 badExpirationStore (by decide)).1

/-- C13, counterexample: with the largest `int64` as time-to-live at clock
1700000000 the entry left at the namespaced key has a negative expiration,
which is not `now + ttl`. -/
theorem setCache_stores_wrapped_expiration :
    (0 : Int) < 9223372036854775807 ∧
    Decode ((setCache "k" 9223372036854775807 "v" 1700000000 emptyStore).1.Get (cacheKey "k"))
        ({ Expiration := 0, Data := "" } : Entry String)
      = ({ Expiration := -9223372035154775809, Data := "v" }, false) ∧
    (-9223372035154775809 : Int) ≠ 1700000000 + 9223372036854775807 := by
  decide

/-- C18, witness: a half-hour entry written and read at 1700000000. -/
theorem setCache_expiration_no_wrap_witness :
    storedExpiration 1800 1700000000 = 1700000000 + 1800 ∧
    getCache String "k" 1700000000 (setCache "k" 1800 "v" 1700000000 emptyStore).1
      = ("v", none) :=
  ⟨(setCache_expiration_no_wrap "k" 1800 "v" 1700000000 emptyStore
      (by decide) (by decide) (by decide)).2.2.2.2.1,
   (setCache_expiration_no_wrap "k" 1800 "v" 1700000000 emptyStore
      (by decide) (by decide) (by decide)).2.2.2.2.2.2.2⟩

/-- On a store whose overrides hold a string at `cache`, the database
names of the settings file are hidden before `SetLocationsCache` and
visible after it. -/
theorem SetLocationsCache_unshadows :
    cacheShadowed shadowedStore = true ∧
    GetDbNamesCache 5 shadowedStore = none ∧
    GetDbNamesCache 5 (SetLocationsCache none "" 1 1 shadowedStore) = some ["a"] := by
  decide

/-- C17, counterexample: the logical keys `A` and `a` are distinct, yet
`setCache` under `a` changes what `getCache` returns for `A`; likewise
writing under `a.b` replaces the entry under `a` by a map, and writing
under `a` removes the entry under `a.b`. -/
theorem setCache_colliding_keys :
    "A" ≠ "a" ∧
    getCache String "A" 5 (setCache "A" 0 "old" 1 emptyStore).1 = ("old", none) ∧
    getCache String "A" 5 (setCache "a" 0 "new" 1 (setCache "A" 0 "old" 1 emptyStore).1).1
      = ("new", none) ∧
    getCache String "a" 5 (setCache "a" 0 "old" 1 emptyStore).1 = ("old", none) ∧
    getCache String "a" 5 (setCache "a.b" 0 "new" 1 (setCache "a" 0 "old" 1 emptyStore).1).1
      = ("", none) ∧
    getCache String "a.b" 5 (setCache "a.b" 0 "old" 1 emptyStore).1 = ("old", none) ∧
    getCache String "a.b" 5 (setCache "a" 0 "new" 1 (setCache "a.b" 0 "old" 1 emptyStore).1).1
      = ("", none) := by
  decide

/-- C17, witness: writing the locations at 1700000000 leaves the database
names persisted by an earlier run as they were. -/
theorem setCache_other_key_witness :
    getCache (Option (List String)) "database_names" 1700000000
        (setCache "locations" 28800 (some [("waw", "Warsaw")]) 1700000000
          (persistedStore 1700001800)).1
      = getCache (Option (List String)) "database_names" 1700000000
          (persistedStore 1700001800) :=
  (setCache_other_key "database_names" "locations" 28800 (some [("waw", "Warsaw")])
    1700000000 1700000000 0 0 0 0 (persistedStore 1700001800) none none ""
    (by decide) (by decide) (by decide) (by decide)).2.1

/-- C14, counterexample: on the store loaded from a settings file that
holds an empty location mapping, `invalidateCache` of `database_names`
succeeds and changes what `getCache` returns for `locations` from the empty
mapping to the nil mapping: the snapshot is rebuilt from the flattened
keys, and an empty map has none. -/
theorem invalidateCache_drops_empty_map :
    "locations" ≠ "database_names" ∧
    (invalidateCache "database_names" emptyLocationsStore).2 = none ∧
    getCache (Option (List (String × String))) "locations" 5 emptyLocationsStore
      = (some [], none) ∧
    getCache (Option (List (String × String))) "locations" 5
        (invalidateCache "database_names" emptyLocationsStore).1
      = (none, none) := by
  decide

/-- C16, witness: the entry persisted with expiration 5 and read at clock
10 gives `ErrExpired`, the store after the read is the store before it, and
a second read on it gives the same stale names and `ErrExpired` again. -/
theorem getCacheRun_reads_only_witness :
    (getCacheRun (Option (List String)) "database_names" 10 (persistedStore 5)).1
      = (some ["a", "b"], some CacheError.ErrExpired) ∧
    (getCacheRun (Option (List String)) "database_names" 10 (persistedStore 5)).2
      = persistedStore 5 ∧
    (getCacheRun (Option (List String)) "database_names" 10
        (getCacheRun (Option (List String)) "database_names" 10 (persistedStore 5)).2).1
      = (some ["a", "b"], some CacheError.ErrExpired) :=
  have h := getCacheRun_reads_only (Option (List String)) "database_names" 10 (persistedStore 5)
  have e : (getCacheRun (Option (List String)) "database_names" 10 (persistedStore 5)).1
      = (some ["a", "b"], some CacheError.ErrExpired) := by decide
  ⟨e, h.1, h.2.2.2.trans e⟩

/-- C14, amended, witness: on the store loaded from a settings file that
holds an empty location mapping and the database name `a`,
`invalidateCache("locations")` leaves the entry of `database_names`, at
which the file is well formed, as it was. -/
theorem invalidateCache_other_keys_witness :
    cacheKey "database_names" ≠ cacheKey "locations" ∧
    (wellFormedAt emptyLocationsStore.config
        (splitKey (lowerKey (cacheKey "database_names"))) = true ∧
      overrideClear emptyLocationsStore (cacheKey "database_names") = true) ∧
    ((invalidateCache "locations" emptyLocationsStore).1.Get (cacheKey "database_names")
        = emptyLocationsStore.Get (cacheKey "database_names") ∧
      ∀ (T : Type) [GoType T] (k2 : String) (now : Int),
        cacheKey k2 = cacheKey "database_names" →
        getCache T k2 now (invalidateCache "locations" emptyLocationsStore).1
          = getCache T k2 now emptyLocationsStore) :=
  ⟨by decide, ⟨by decide, by decide⟩,
    invalidateCache_other_keys "locations" (cacheKey "database_names") emptyLocationsStore
      (by decide) (Or.inr ⟨by decide, by decide⟩)⟩

end Examples

end settings
